import Mathlib

/-!
# Email worker: MIME multipart splitting, attachment extraction, clean-body rebuild

A shallow embedding of `src/index.js`.

Modelling conventions.
* A JavaScript string is a `List Char` (`Str`); `substring(0, i)` is `take i`,
  `substring(i)` is `drop i`, `+` is `++`.
* A `Uint8Array` is a `List Nat` of byte values.
* A stream is the finite list of the chunks its reader delivers; of each chunk the
  code observes `value.length` and `new TextDecoder().decode(value)` only, so a
  chunk is that pair.
* The upload collaborator (`uploadAttachmentToR2`, a network call) is a parameter
  returning `none` when it throws.
* `atob` is the platform's forgiving base64 decoder; it returns `none` where the
  platform throws.
* `String.prototype.toLowerCase` is the platform's Unicode lower-casing; the functions
  that call it (`isVideoFile`, `getMimeType` and their callers) take it as the parameter
  `toLowerCase`, and what is proved of them holds for every such function.
-/

namespace EmailWorker

abbrev Str := List Char

/-! ## String primitives of the platform -/

/-- The double quote character. -/
def dquote : Char := Char.ofNat 34

/-- Characters matched by the regular-expression class `\s` (and removed by `trim`). -/
def isSpaceChar (c : Char) : Bool :=
  let n := c.toNat
  n == 9 || n == 10 || n == 11 || n == 12 || n == 13 || n == 32 || n == 160 ||
  n == 5760 || (8192 ≤ n && n ≤ 8202) || n == 8232 || n == 8233 || n == 8239 ||
  n == 8287 || n == 12288 || n == 65279

/-- `s.startsWith(p)`. -/
def startsWith (p s : Str) : Bool := p.isPrefixOf s

/-- `s.indexOf(p)`, with `none` for `-1`. -/
def indexOf (p : Str) : Str → Option Nat
  | [] => if startsWith p [] then some 0 else none
  | c :: cs =>
    if startsWith p (c :: cs) then some 0
    else match indexOf p cs with
      | some i => some (i + 1)
      | none => none

/-- `s.includes(p)`. -/
def includes (p s : Str) : Bool := (indexOf p s).isSome

/-- `s.trim()`. -/
def trim (s : Str) : Str :=
  ((s.dropWhile isSpaceChar).reverse.dropWhile isSpaceChar).reverse

/-- One step of `split`: the text before the first occurrence of `sep` and the text
after it, scanning `s` with `acc` holding the characters already passed (reversed). -/
def splitLoop (sep : Str) : Nat → Str → Str → List Str
  | 0, acc, s => [acc.reverse ++ s]
  | fuel + 1, acc, s =>
    match s with
    | [] => [acc.reverse]
    | c :: cs =>
      if startsWith sep (c :: cs) then
        acc.reverse :: splitLoop sep fuel [] ((c :: cs).drop sep.length)
      else splitLoop sep fuel (c :: acc) cs

/-- `s.split(sep)` for a string separator: the pieces between the successive leftmost,
non-overlapping occurrences of `sep`; an empty separator splits into single characters. -/
def split (sep s : Str) : List Str :=
  if sep = [] then s.map (fun c => [c]) else splitLoop sep (s.length + 1) [] s

/-- `arr.slice(1, -1)`. -/
def sliceInner {α : Type} (xs : List α) : List α := (xs.drop 1).dropLast

/-- The capture of `/key"([^"]+)"/` in `s` (`key` ends in `=`): at the leftmost position
where `key"` is followed by one or more characters other than `"` and then `"`. -/
def matchQuoted (key : Str) : Str → Option Str
  | [] => none
  | c :: cs =>
    let here :=
      if startsWith (key ++ [dquote]) (c :: cs) then
        let rest := (c :: cs).drop (key.length + 1)
        let run := rest.takeWhile (fun x => x != dquote)
        if run != [] && (rest.drop run.length).head? == some dquote then some run else none
      else none
    match here with
    | some r => some r
    | none => matchQuoted key cs

/-- The capture of `/key([^;\s]+)/` in `s`: at the leftmost position where `key` is
followed by one or more characters that are neither `;` nor white space. -/
def matchBare (key : Str) : Str → Option Str
  | [] => none
  | c :: cs =>
    let here :=
      if startsWith key (c :: cs) then
        let run := ((c :: cs).drop key.length).takeWhile (fun x => x != ';' && !isSpaceChar x)
        if run != [] then some run else none
      else none
    match here with
    | some r => some r
    | none => matchBare key cs

/-- `s.match(/boundary="([^"]+)"/) || s.match(/boundary=([^;\s]+)/)`, capture group 1. -/
def matchBoundary (s : Str) : Option Str :=
  match matchQuoted "boundary=".toList s with
  | some b => some b
  | none => matchBare "boundary=".toList s

/-- `part.match(/filename="([^"]+)"/) || part.match(/filename=([^;\s]+)/)`, capture group 1. -/
def matchFilename (s : Str) : Option Str :=
  match matchQuoted "filename=".toList s with
  | some b => some b
  | none => matchBare "filename=".toList s

/-! ## Base64 -/

/-- Characters of the class `[A-Za-z0-9+/]`. -/
def isBase64Char (c : Char) : Bool :=
  ('A' ≤ c && c ≤ 'Z') || ('a' ≤ c && c ≤ 'z') || ('0' ≤ c && c ≤ '9') || c == '+' || c == '/'

/-- The test `/^[A-Za-z0-9+/]*={0,2}$/`. -/
def base64FormatOk (s : Str) : Bool :=
  let rest := s.dropWhile isBase64Char
  rest == [] || rest == ['='] || rest == ['=', '=']

/-- The value of a character of the base64 alphabet. -/
def sextetOf (c : Char) : Option Nat :=
  if 'A' ≤ c && c ≤ 'Z' then some (c.toNat - 65)
  else if 'a' ≤ c && c ≤ 'z' then some (c.toNat - 97 + 26)
  else if '0' ≤ c && c ≤ '9' then some (c.toNat - 48 + 52)
  else if c == '+' then some 62
  else if c == '/' then some 63
  else none

/-- The values of a string of alphabet characters, `none` if one is outside the alphabet. -/
def sextetsOf : Str → Option (List Nat)
  | [] => some []
  | c :: cs =>
    match sextetOf c, sextetsOf cs with
    | some v, some vs => some (v :: vs)
    | _, _ => none

/-- Bytes of a sequence of 6-bit values: 24 bits give three bytes; a remainder of 12 bits
gives one byte and of 18 bits two bytes, the low bits discarded. -/
def bytesOfSextets : List Nat → List Nat
  | a :: b :: c :: d :: rest =>
    (a * 4 + b / 16) :: ((b % 16) * 16 + c / 4) :: ((c % 4) * 64 + d) :: bytesOfSextets rest
  | [a, b, c] => [a * 4 + b / 16, (b % 16) * 16 + c / 4]
  | [a, b] => [a * 4 + b / 16]
  | _ => []

/-- ASCII white space, as removed by `atob`. -/
def isAsciiSpace (c : Char) : Bool :=
  c == '\t' || c == '\n' || c == Char.ofNat 12 || c == '\r' || c == ' '

/-- Removal of one or two trailing `=` (done by `atob` when the length is a multiple of 4). -/
def stripPadding (s : Str) : Str :=
  match s.reverse with
  | '=' :: '=' :: r => r.reverse
  | '=' :: r => r.reverse
  | _ => s

/-- The platform function `atob` (forgiving base64 decode): the char codes of the binary
string it returns, `none` where it throws. -/
def atob (s : Str) : Option (List Nat) :=
  let d := s.filter (fun c => !isAsciiSpace c)
  let d := if d.length % 4 = 0 then stripPadding d else d
  if d.length % 4 = 1 then none
  else match sextetsOf d with
    | some vs => some (bytesOfSextets vs)
    | none => none

/-- `base64ToUint8Array(base64String)`: the decoded bytes, empty on any failure. -/
def base64ToUint8Array (base64String : Str) : List Nat :=
  if base64String = [] then []
  else
    let cleanBase64 := base64String.filter (fun c => !isSpaceChar c)
    if !base64FormatOk cleanBase64 then []
    else if cleanBase64.length % 4 ≠ 0 then []
    else match atob cleanBase64 with
      | some binaryString => binaryString.map (fun code => code % 256)
      | none => []

/-! ## Data model -/

/-- What the upload collaborator returns, as far as the parser reads it. -/
structure UploadResult where
  downloadUrl : Str
  mimeType : Str
  deriving DecidableEq, Repr

/-- The upload collaborator `uploadAttachmentToR2(bytes, filename, env)`; `none` when it throws. -/
abbrev Uploader := List Nat → Str → Option UploadResult

/-- An entry of `attachmentUrls`; `type` is set by the streaming path only. -/
structure AttachmentRecord where
  filename : Str
  url : Str
  size : Nat
  mimeType : Str
  type : Option Str
  deriving DecidableEq, Repr

/-- The `type` field of an entry of `bodyParts`. -/
inductive PartType where
  | body
  | attachment
  deriving DecidableEq, Repr

/-- An entry of `bodyParts`. -/
structure BodyPart where
  type : PartType
  content : Str
  filename : Option Str
  deriving DecidableEq, Repr

/-- The two accumulators `attachmentUrls` and `bodyParts`. -/
structure ParseState where
  attachmentUrls : List AttachmentRecord
  bodyParts : List BodyPart
  deriving DecidableEq, Repr

/-- The object returned by the parsers. -/
structure ParseResult where
  attachmentUrls : List AttachmentRecord
  cleanBody : Str
  deriving DecidableEq, Repr

/-- A chunk delivered by the stream reader: `value.length` and the decoded text. -/
structure Chunk where
  size : Nat
  text : Str
  deriving DecidableEq, Repr

/-- The `rawContent` argument of `streamParseEmail`: a stream, or text (a string, or a
binary buffer once decoded). -/
inductive RawContent where
  | stream (chunks : List Chunk)
  | text (contentString : Str)

/-! ## Part classification and attachment extraction -/

/-- `part.includes("Content-Disposition: attachment") || part.includes("Content-Disposition:attachment")`. -/
def hasAttachmentDisposition (part : Str) : Bool :=
  includes "Content-Disposition: attachment".toList part ||
  includes "Content-Disposition:attachment".toList part

/-- `filenameMatch[1].replace(/"/g, "")`. -/
def stripQuotes (s : Str) : Str := s.filter (fun c => c != dquote)

/-- The `contentStart` of a part: the index of the first `\n\n`, else of the first `\r\n\r\n`. -/
def contentStart (part : Str) : Option Nat :=
  match indexOf "\n\n".toList part with
  | some i => some i
  | none => indexOf "\r\n\r\n".toList part

/-- `part.substring(contentStart + (part.indexOf("\n\n") !== -1 ? 2 : 4)).trim()`. -/
def contentAfter (part : Str) (start : Nat) : Str :=
  trim (part.drop (start + (if (indexOf "\n\n".toList part).isSome then 2 else 4)))

/-- The lower-casing of ASCII letters, `A`-`Z` to `a`-`z`, other characters left as they
are. The platform's `toLowerCase` agrees with it on strings of ASCII characters; on other
strings the platform applies the Unicode mapping, so the functions that call `toLowerCase`
take the platform's function as a parameter and this one only serves in instances. -/
def asciiLowerCase (s : Str) : Str := s.map Char.toLower

/-- `s.lastIndexOf(".")`, with `none` for `-1`. -/
def lastIndexOfDot : Str → Option Nat
  | [] => none
  | c :: cs =>
    match lastIndexOfDot cs with
    | some i => some (i + 1)
    | none => if c == '.' then some 0 else none

/-- `filename.toLowerCase().substring(filename.lastIndexOf("."))`. -/
def lowerExtension (toLowerCase : Str → Str) (filename : Str) : Str :=
  match lastIndexOfDot filename with
  | some i => (toLowerCase filename).drop i
  | none => toLowerCase filename

/-- `isVideoFile(filename)`. -/
def isVideoFile (toLowerCase : Str → Str) (filename : Str) : Bool :=
  [".mp4", ".avi", ".mkv", ".mov", ".wmv", ".flv", ".webm", ".m4v"].contains
    (String.mk (lowerExtension toLowerCase filename))

/-- `processAttachment(part, filename, attachmentUrls, bodyParts, env)`. -/
def processAttachment (toLowerCase : Str → Str) (upload : Uploader) (part filename : Str)
    (st : ParseState) : ParseState :=
  let attachmentType := if isVideoFile toLowerCase filename then "video" else "regular"
  let retained : ParseState :=
    { st with bodyParts := st.bodyParts ++ [⟨PartType.attachment, part, some filename⟩] }
  match contentStart part with
  | none => retained
  | some start =>
    let content := contentAfter part start
    let contentBuffer := base64ToUint8Array content
    if contentBuffer.length = 0 then retained
    else match upload contentBuffer filename with
      | some uploadResult =>
        { st with attachmentUrls := st.attachmentUrls ++
            [⟨filename, uploadResult.downloadUrl, contentBuffer.length, uploadResult.mimeType,
              some attachmentType.toList⟩] }
      | none => retained

/-- `processEmailPart(part, boundary, attachmentUrls, bodyParts, env)`. -/
def processEmailPart (toLowerCase : Str → Str) (upload : Uploader) (st : ParseState)
    (part : Str) : ParseState :=
  if hasAttachmentDisposition part then
    match matchFilename part with
    | some m => processAttachment toLowerCase upload part (stripQuotes m) st
    | none => st
  else { st with bodyParts := st.bodyParts ++ [⟨PartType.body, part, none⟩] }

/-! ## The string parser -/

/-- The body of the `for (const part of contentParts)` loop of `parseEmailFromString`. -/
def stringPartStep (upload : Uploader) (st : ParseState) (part : Str) : ParseState :=
  if hasAttachmentDisposition part then
    match matchFilename part with
    | some m =>
      let filename := stripQuotes m
      match contentStart part with
      | some start =>
        let content := contentAfter part start
        let contentBuffer := base64ToUint8Array content
        match upload contentBuffer filename with
        | some uploadResult =>
          { st with attachmentUrls := st.attachmentUrls ++
              [⟨filename, uploadResult.downloadUrl, contentBuffer.length,
                uploadResult.mimeType, none⟩] }
        | none =>
          { st with bodyParts := st.bodyParts ++ [⟨PartType.attachment, part, some filename⟩] }
      | none => st
    | none => st
  else if !includes "Content-Disposition: attachment".toList part then
    { st with bodyParts := st.bodyParts ++ [⟨PartType.body, part, none⟩] }
  else st

/-- The boundary marker `--` followed by the boundary. -/
def boundaryMarker (boundary : Str) : Str := "--".toList ++ boundary

/-- The rebuild loop of `parseEmailFromString`: every retained part, of either type, is
written after a boundary marker. -/
def rebuildParts (boundary : Str) (bodyParts : List BodyPart) : Str :=
  bodyParts.foldl
    (fun cleanBody part =>
      match part.type with
      | PartType.body => cleanBody ++ (boundaryMarker boundary ++ part.content)
      | PartType.attachment => cleanBody ++ (boundaryMarker boundary ++ part.content))
    []

/-- `parseEmailFromString(contentString, env)`. -/
def parseEmailFromString (upload : Uploader) (contentString : Str) : ParseResult :=
  match matchBoundary contentString with
  | none => ⟨[], contentString⟩
  | some boundary =>
    let parts := split (boundaryMarker boundary) contentString
    let contentParts := (sliceInner parts).take 10
    let st := contentParts.foldl (stringPartStep upload) ⟨[], []⟩
    let cleanBody := parts.headD [] ++ "\n\n".toList ++ rebuildParts boundary st.bodyParts
    let cleanBody :=
      if st.bodyParts.length > 0 then cleanBody ++ (boundaryMarker boundary ++ "--".toList)
      else cleanBody
    ⟨st.attachmentUrls, cleanBody⟩

/-! ## The streaming parser -/

/-- The inner `while ((boundaryIndex = buffer.indexOf(boundaryMarker)) !== -1)` loop of
`processEmailBodyStream`, over a part handler `handle`; `fuel` bounds the iterations. -/
def drainLoop {σ : Type} (handle : σ → Str → σ) (marker : Str) : Nat → Str → σ → Str × σ
  | 0, buffer, st => (buffer, st)
  | fuel + 1, buffer, st =>
    match indexOf marker buffer with
    | none => (buffer, st)
    | some boundaryIndex =>
      let part := buffer.take boundaryIndex
      let st := if trim part ≠ [] then handle st part else st
      let buffer := buffer.drop (boundaryIndex + marker.length)
      if startsWith "--".toList buffer then (buffer, st)
      else drainLoop handle marker fuel buffer st

/-- The inner loop run to completion: every iteration removes at least the marker from the
buffer, so the buffer's length bounds the iterations. -/
def drain {σ : Type} (handle : σ → Str → σ) (marker : Str) (buffer : Str) (st : σ) : Str × σ :=
  drainLoop handle marker (buffer.length + 1) buffer st

/-- The outer `while (true)` loop of `processEmailBodyStream`: one iteration per chunk read. -/
def readBody {σ : Type} (handle : σ → Str → σ) (marker : Str) : List Str → Str → σ → Str × σ
  | [], buffer, st => (buffer, st)
  | chunk :: rest, buffer, st =>
    let r := drain handle marker (buffer ++ chunk) st
    readBody handle marker rest r.1 r.2

/-- `processEmailBodyStream` over a part handler: the chunk loop, then the remaining buffer
as one last part. -/
def bodyStream {σ : Type} (handle : σ → Str → σ) (boundary : Str) (chunks : List Str)
    (initialBuffer : Str) (st : σ) : σ :=
  let r := readBody handle (boundaryMarker boundary) chunks initialBuffer st
  if trim r.1 ≠ [] ∧ ¬ startsWith "--".toList r.1 = true then handle r.2 r.1 else r.2

/-- `processEmailBodyStream(reader, initialBuffer, boundary, attachmentUrls, bodyParts, env)`. -/
def processEmailBodyStream (toLowerCase : Str → Str) (upload : Uploader) (chunks : List Str)
    (initialBuffer boundary : Str) (st : ParseState) : ParseState :=
  bodyStream (processEmailPart toLowerCase upload) boundary chunks initialBuffer st

/-- The sequence of parts `processEmailBodyStream` submits to `processEmailPart`. -/
def submittedParts (boundary : Str) (chunks : List Str) (initialBuffer : Str) : List Str :=
  bodyStream (fun acc part => acc ++ [part]) boundary chunks initialBuffer []

/-- The header limit `maxHeaderSize`. -/
def maxHeaderSize : Nat := 64 * 1024

/-- The variables of `streamParseEmail` after its header loop. -/
structure HeaderScan where
  buffer : Str
  headerContent : Str
  headerComplete : Bool
  boundary : Option Str
  rest : List Chunk
  deriving DecidableEq, Repr

/-- The header loop `while (!headerComplete && totalBytesRead < maxHeaderSize)`. -/
def readHeader : List Chunk → Str → Nat → HeaderScan
  | [], buffer, _ => ⟨buffer, [], false, none, []⟩
  | chunk :: rest, buffer, totalBytesRead =>
    if totalBytesRead < maxHeaderSize then
      let buffer := buffer ++ chunk.text
      match indexOf "\n\n".toList buffer with
      | some headerEndIndex =>
        let headerContent := buffer.take headerEndIndex
        ⟨buffer, headerContent, true, matchBoundary headerContent, rest⟩
      | none => readHeader rest buffer (totalBytesRead + chunk.size)
    else ⟨buffer, [], false, none, chunk :: rest⟩

/-- `arr.join(sep)` for strings. -/
def joinWith (sep : Str) : List Str → Str
  | [] => []
  | [x] => x
  | x :: y :: rest => x ++ sep ++ joinWith sep (y :: rest)

/-- The clean body built by `streamParseEmail` from the header and the retained parts. -/
def streamCleanBody (headerContent boundary : Str) (bodyParts : List BodyPart) : Str :=
  let cleanBody := headerContent ++ "\n\n".toList
  if bodyParts.length > 0 then
    let textParts := bodyParts.filter (fun part => part.type = PartType.body)
    if textParts.length > 0 then
      cleanBody ++ (boundaryMarker boundary ++ "\n".toList)
        ++ joinWith ("\n".toList ++ boundaryMarker boundary ++ "\n".toList)
            (textParts.map (fun part => part.content))
        ++ ("\n".toList ++ boundaryMarker boundary ++ "--".toList)
    else cleanBody
  else cleanBody

/-- `streamParseEmail(rawContent, env)`. -/
def streamParseEmail (toLowerCase : Str → Str) (upload : Uploader) : RawContent → ParseResult
  | RawContent.text contentString => parseEmailFromString upload contentString
  | RawContent.stream chunks =>
    let h := readHeader chunks [] 0
    match h.boundary, h.headerComplete with
    | some boundary, true =>
      let st := processEmailBodyStream toLowerCase upload (h.rest.map (fun c => c.text))
        h.buffer boundary ⟨[], []⟩
      ⟨st.attachmentUrls, streamCleanBody h.headerContent boundary st.bodyParts⟩
    | _, _ => ⟨[], h.headerContent⟩

/-! ## Reference base64 encoder (RFC 4648, padded), used to state the round trip -/

/-- The base64 alphabet, in value order. -/
def base64Alphabet : Str :=
  "ABCDEFGHIJKLMNOPQRSTUVWXYZabcdefghijklmnopqrstuvwxyz0123456789+/".toList

/-- The alphabet character of a 6-bit value. -/
def sextetChar (v : Nat) : Char := base64Alphabet.getD v 'A'

/-- The 6-bit values of the standard encoding of a byte sequence, padding aside. -/
def encodeSextets : List Nat → List Nat
  | a :: b :: c :: rest =>
    a / 4 :: ((a % 4) * 16 + b / 16) :: ((b % 16) * 4 + c / 64) :: c % 64 :: encodeSextets rest
  | [a, b] => [a / 4, (a % 4) * 16 + b / 16, (b % 16) * 4]
  | [a] => [a / 4, (a % 4) * 16]
  | [] => []

/-- The number of `=` that pad the standard encoding of a byte sequence. -/
def padCount (bytes : List Nat) : Nat := (3 - bytes.length % 3) % 3

/-- The standard padded base64 encoding of a byte sequence. -/
def base64Encode (bytes : List Nat) : Str :=
  (encodeSextets bytes).map sextetChar ++ List.replicate (padCount bytes) '='

/-! ## Specification-side notions -/

/-- The pattern `key"…"` occurs in `s`: `key`, a double quote, one or more characters other
than a double quote, and a double quote. -/
def QuotedOccurs (key s : Str) : Prop :=
  ∃ p b q, s = p ++ key ++ dquote :: (b ++ dquote :: q) ∧ b ≠ [] ∧ ∀ c ∈ b, c ≠ dquote

/-- The pattern `key…` occurs in `s`: `key` followed by a character that is neither `;`
nor white space. -/
def BareOccurs (key s : Str) : Prop :=
  ∃ p c q, s = p ++ key ++ c :: q ∧ c ≠ ';' ∧ isSpaceChar c = false

/-- An uploader that always succeeds. -/
def okUpload : Uploader :=
  fun _ filename => some ⟨"https://files.example/".toList ++ filename, "application/octet-stream".toList⟩

/-- A chunk of single-byte text. -/
def asciiChunk (text : Str) : Chunk := ⟨text.length, text⟩

/-! ## Concrete messages used below -/

/-- A header block declaring boundary `X`, with its terminating blank line. -/
def sampleHeader : Str := "Content-Type: multipart/mixed; boundary=\"X\"\n\n".toList

/-- An attachment part with a filename and valid base64 content. -/
def sampleAttachmentPart : Str :=
  "\nContent-Disposition: attachment; filename=\"a.txt\"\n\naGVsbG8=\n".toList

/-- A body part. -/
def sampleBodyPart : Str := "\n\nhello\n".toList

/-- A part with an attachment disposition and no filename parameter. -/
def namelessAttachmentPart : Str := "\nContent-Disposition: attachment\n\naGVsbG8=\n".toList

/-- An attachment part without a blank line between its header and anything else. -/
def headerOnlyAttachmentPart : Str :=
  "\nContent-Disposition: attachment; filename=\"a.txt\"\n".toList

/-- An attachment part whose content is not base64. -/
def brokenAttachmentPart : Str :=
  "\nContent-Disposition: attachment; filename=\"a.txt\"\n\n!!!\n".toList

/-- No boundary marker follows a terminal marker: whenever the marker occurs in `t`
followed by `--`, it does not occur in what follows it. -/
def TerminalIsLast (marker t : Str) : Prop :=
  ∀ p q, t = p ++ marker ++ q → startsWith "--".toList q = true → includes marker q = false

/-- A part of a multipart message as the specification describes it: an attachment part
with its filename and the bytes its content encodes, or a body part. -/
inductive MimePart where
  | attachment (text filename : Str) (bytes : List Nat)
  | body (text : Str)
  deriving DecidableEq, Repr

/-- The source text of a part (what stands between two boundary markers). -/
def MimePart.text : MimePart → Str
  | MimePart.attachment text _ _ => text
  | MimePart.body text => text

/-- The message text: the header block, every part introduced by `--boundary`, and the
closing `--boundary--`. -/
def multipartMessage (header boundary : Str) (parts : List MimePart) : Str :=
  header ++ (parts.map (fun p => boundaryMarker boundary ++ p.text)).flatten
    ++ (boundaryMarker boundary ++ "--".toList)

/-- What the specification requires of a part. An attachment part contains
`Content-Disposition: attachment`, has a filename parameter whose value is the part's
filename, and after its first blank line holds base64 content that decodes to the part's
bytes, of which there is at least one. A body part has no attachment disposition. -/
def MimePart.WellFormed : MimePart → Prop
  | MimePart.attachment text filename bytes =>
    includes "Content-Disposition: attachment".toList text = true ∧
    (∃ m, matchFilename text = some m ∧ stripQuotes m = filename) ∧
    (∃ start, contentStart text = some start ∧
      base64ToUint8Array (contentAfter text start) = bytes) ∧
    bytes ≠ []
  | MimePart.body text => hasAttachmentDisposition text = false

/-- The attachment records expected for a list of parts: one for each attachment part, in
order, built from what the uploader returns for its bytes and filename. -/
def expectedRecords (upload : Uploader) : List MimePart → List AttachmentRecord
  | [] => []
  | MimePart.attachment _ filename bytes :: rest =>
    match upload bytes filename with
    | some r =>
      ⟨filename, r.downloadUrl, bytes.length, r.mimeType, none⟩ :: expectedRecords upload rest
    | none => expectedRecords upload rest
  | MimePart.body _ :: rest => expectedRecords upload rest

/-- The filenames of the attachment parts, in order. -/
def attachmentNames : List MimePart → List Str
  | [] => []
  | MimePart.attachment _ filename _ :: rest => filename :: attachmentNames rest
  | MimePart.body _ :: rest => attachmentNames rest

/-- The texts of the body parts, in order. -/
def bodyTexts : List MimePart → List Str
  | [] => []
  | MimePart.attachment _ _ _ :: rest => bodyTexts rest
  | MimePart.body text :: rest => text :: bodyTexts rest

/-- The clean document expected from the string parser: what precedes the first marker, a
blank line, every body part after a marker, and the terminal marker if a part is kept. -/
def expectedCleanBody (header boundary : Str) (parts : List MimePart) : Str :=
  header ++ "\n\n".toList
    ++ ((bodyTexts parts).map (fun text => boundaryMarker boundary ++ text)).flatten
    ++ (if bodyTexts parts = [] then [] else boundaryMarker boundary ++ "--".toList)

/-- Eleven body parts. -/
def elevenBodyParts : List MimePart :=
  ["\n\na\n", "\n\nb\n", "\n\nc\n", "\n\nd\n", "\n\ne\n", "\n\nf\n", "\n\ng\n", "\n\nh\n",
    "\n\ni\n", "\n\nj\n", "\n\nk\n"].map (fun s => MimePart.body s.toList)

/-- The body part of the specification's example, with its line breaks. -/
def exampleBodyPart : Str := "\r\n\r\nhello\r\n".toList

/-- The attachment part of the specification's example. -/
def exampleAttachmentPart : Str :=
  "\r\nContent-Disposition: attachment; filename=\"a.txt\"\r\n\r\naGVsbG8=\r\n".toList

/-- The specification's example message: the header, a blank line, and the body
`--X`, the `hello` part, `--X`, the attachment part, `--X--`. -/
def exampleMessage : Str :=
  "Content-Type: multipart/mixed; boundary=\"X\"".toList ++ "\r\n\r\n".toList
    ++ "--X".toList ++ exampleBodyPart ++ "--X".toList ++ exampleAttachmentPart ++ "--X--".toList

/-- The clean document of the example: the header with its blank line, the blank line the
rebuild adds, and the `hello` part between `--X` and `--X--`. -/
def exampleCleanBody : Str :=
  "Content-Type: multipart/mixed; boundary=\"X\"".toList ++ "\r\n\r\n".toList ++ "\n\n".toList
    ++ "--X".toList ++ exampleBodyPart ++ "--X--".toList

/-- A message text put together from its pieces: the text before the first marker, every
part after a marker, and a last marker followed by the trailer (`--` when the message is
closed by the terminal marker). -/
def assembleMessage (header boundary : Str) (parts : List Str) (trailer : Str) : Str :=
  header ++ (parts.map (fun p => boundaryMarker boundary ++ p)).flatten
    ++ (boundaryMarker boundary ++ trailer)

/-- The accumulators of `parseEmailFromString` after its loop over the parts. -/
def stringParseState (upload : Uploader) (boundary contentString : Str) : ParseState :=
  ((sliceInner (split (boundaryMarker boundary) contentString)).take 10).foldl
    (stringPartStep upload) ⟨[], []⟩

/-- The parts `parseEmailFromString` writes into the clean body (its `bodyParts`). -/
def retainedParts (upload : Uploader) (contentString : Str) : List BodyPart :=
  match matchBoundary contentString with
  | none => []
  | some boundary => (stringParseState upload boundary contentString).bodyParts

/-- Ten body parts and an eleventh part that holds the only boundary declaration. -/
def declarationInEleventhPart : List Str :=
  ["\n\na\n", "\n\nb\n", "\n\nc\n", "\n\nd\n", "\n\ne\n", "\n\nf\n", "\n\ng\n", "\n\nh\n",
    "\n\ni\n", "\n\nj\n", "\n\nboundary=\"X\"\n"].map String.toList

/-- `WhitespaceInserted s t`: `t` is `s` with white space characters (space, tab, carriage
return, line feed) inserted at arbitrary positions. -/
inductive WhitespaceInserted : Str → Str → Prop where
  | done : WhitespaceInserted [] []
  | keep (c : Char) {s t : Str} : WhitespaceInserted s t → WhitespaceInserted (c :: s) (c :: t)
  | insert (w : Char) {s t : Str} :
      (w = ' ' ∨ w = '\t' ∨ w = '\r' ∨ w = '\n') → WhitespaceInserted s t →
      WhitespaceInserted s (w :: t)

/-! ## Error report chunks and MIME types -/

/-- The loop `for (let i = 0; i < str.length; i += maxLength)` of `splitByLength`, with the
number of iterations allowed as fuel: `none` when the fuel is used up before the loop ends.
`str.slice(i, i + maxLength)` is `(str.drop i).take maxLength`. -/
def splitByLengthLoop (str : Str) (maxLength : Nat) : Nat → Nat → List Str → Option (List Str)
  | 0, i, chunks => if i < str.length then none else some chunks
  | fuel + 1, i, chunks =>
    if i < str.length then
      splitByLengthLoop str maxLength fuel (i + maxLength)
        (chunks ++ [(str.drop i).take maxLength])
    else some chunks

/-- `splitByLength(str, maxLength)`, run for at most `fuel` iterations. -/
def splitByLength (fuel : Nat) (str : Str) (maxLength : Nat) : Option (List Str) :=
  splitByLengthLoop str maxLength fuel 0 []

/-- The table `mimeTypes` of `getMimeType`. -/
def mimeTypes : List (Str × Str) :=
  [(".pdf", "application/pdf"), (".jpg", "image/jpeg"), (".jpeg", "image/jpeg"),
    (".png", "image/png"), (".gif", "image/gif"), (".webp", "image/webp"),
    (".svg", "image/svg+xml"), (".txt", "text/plain"), (".json", "application/json"),
    (".zip", "application/zip"), (".mp4", "video/mp4"), (".wav", "audio/wav"),
    (".doc", "application/msword"),
    (".docx", "application/vnd.openxmlformats-officedocument.wordprocessingml.document"),
    (".xls", "application/vnd.ms-excel"),
    (".xlsx", "application/vnd.openxmlformats-officedocument.spreadsheetml.sheet"),
    (".avi", "video/x-msvideo"), (".mkv", "video/x-matroska"), (".mov", "video/quicktime"),
    (".wmv", "video/x-ms-wmv"), (".flv", "video/x-flv"), (".webm", "video/webm"),
    (".m4v", "video/mp4"), (".mp3", "audio/mpeg"), (".flac", "audio/flac"),
    (".aac", "audio/aac"), (".ogg", "audio/ogg"), (".m4a", "audio/mp4")].map
    (fun p => (p.1.toList, p.2.toList))

/-- The generic content type `application/octet-stream`. -/
def octetStream : Str := "application/octet-stream".toList

/-- The `extension` computed by `getMimeType`:
`filename.includes(".") ? filename.substring(filename.lastIndexOf(".")).toLowerCase() : ""`. -/
def mimeExtension (toLowerCase : Str → Str) (filename : Str) : Str :=
  if includes ".".toList filename then
    toLowerCase (match lastIndexOfDot filename with
      | some i => filename.drop i
      | none => filename)
  else []

/-- `getMimeType(filename)`: `mimeTypes[extension] || "application/octet-stream"`. The
extension is empty or begins with a dot, so the lookup can only find a key of the table. -/
def getMimeType (toLowerCase : Str → Str) (filename : Str) : Str :=
  match mimeTypes.lookup (mimeExtension toLowerCase filename) with
  | some mimeType => if mimeType = [] then octetStream else mimeType
  | none => octetStream

/-- How a part is handled: as body text, as an attachment under the filename extracted from
it, or not at all (attachment disposition without a filename). -/
inductive PartClass where
  | body
  | attachment (filename : Str)
  | ignored
  deriving DecidableEq, Repr

/-- The classification made by `processEmailPart` (and by the loop of
`parseEmailFromString`): the two tests it applies to the part. -/
def classifyPart (part : Str) : PartClass :=
  if hasAttachmentDisposition part then
    match matchFilename part with
    | some m => PartClass.attachment (stripQuotes m)
    | none => PartClass.ignored
  else PartClass.body

/-- The header block of a part: its text before the first blank line (the whole part when
it has none). -/
def headerBlock (part : Str) : Str :=
  match contentStart part with
  | some i => part.take i
  | none => part

/-- Text that does not set off the classifier: it holds neither disposition string, no
`filename=` and no double quote. -/
def InertContent (rest : Str) : Prop :=
  includes "Content-Disposition: attachment".toList rest = false ∧
  includes "Content-Disposition:attachment".toList rest = false ∧
  includes "filename=".toList rest = false ∧
  dquote ∉ rest

/-- A body part, and a part with the same header block whose content quotes an attachment
header. -/
def plainPart : Str := "\nContent-Type: text/plain\n\nhello\n".toList

/-- The part `plainPart` with content that quotes an attachment header. -/
def quotingPart : Str :=
  "\nContent-Type: text/plain\n\nsee Content-Disposition: attachment; filename=x.bin\n".toList

/-- An attachment part with an unquoted filename. -/
def namedPart : Str := "\nContent-Disposition: attachment; filename=a.txt\n\naGVsbG8=\n".toList

/-- The part `namedPart` with content that holds a quoted filename parameter. -/
def renamingPart : Str :=
  "\nContent-Disposition: attachment; filename=a.txt\n\nfilename=\"evil.exe\"\n".toList

/-! # Verification -/

/-! ## Base64: validation and round trip -/

theorem sextetChar_facts : ∀ v, v < 64 →
    sextetOf (sextetChar v) = some v ∧ isBase64Char (sextetChar v) = true ∧
    isSpaceChar (sextetChar v) = false ∧ isAsciiSpace (sextetChar v) = false ∧
    sextetChar v ≠ '=' := by
  decide

theorem isBase64Char_pad : isBase64Char '=' = false := by decide

theorem isSpaceChar_pad : isSpaceChar '=' = false := by decide

theorem isAsciiSpace_pad : isAsciiSpace '=' = false := by decide

theorem sextetOf_pad : sextetOf '=' = none := by decide

theorem base64FormatOk_shape (s : Str) (h : base64FormatOk s = true) :
    ∃ body k, k ≤ 2 ∧ s = body ++ List.replicate k '=' ∧ ∀ c ∈ body, isBase64Char c = true := by
  unfold base64FormatOk at h
  simp only [Bool.or_eq_true, beq_iff_eq] at h
  have hs := (List.takeWhile_append_dropWhile isBase64Char s).symm
  have hb : ∀ c ∈ s.takeWhile isBase64Char, isBase64Char c = true :=
    fun c hc => List.mem_takeWhile_imp hc
  rcases h with (h | h) | h
  · exact ⟨_, 0, by omega, by rw [h] at hs; simpa using hs, hb⟩
  · exact ⟨_, 1, by omega, by rw [h] at hs; simpa using hs, hb⟩
  · exact ⟨_, 2, by omega, by rw [h] at hs; simpa using hs, hb⟩

/-- C6. `base64ToUint8Array` never raises: it is a total function, and a failure of `atob`
is caught and mapped to the empty result. Whenever the input, white space removed, is not a
run of alphabet characters followed by at most two `=`, or its length is not a multiple of
4, the result has length 0. -/
theorem base64ToUint8Array_invalid_is_empty (s : Str) :
    (atob (s.filter (fun c => !isSpaceChar c)) = none → base64ToUint8Array s = []) ∧
    ((¬ ∃ body k, k ≤ 2 ∧
          s.filter (fun c => !isSpaceChar c) = body ++ List.replicate k '=' ∧
          ∀ c ∈ body, isBase64Char c = true) ∨
        (s.filter (fun c => !isSpaceChar c)).length % 4 ≠ 0 →
      (base64ToUint8Array s).length = 0) := by
  unfold base64ToUint8Array
  by_cases h0 : s = []
  · simp [h0]
  · simp only [h0, if_false]
    by_cases hf : base64FormatOk (s.filter (fun c => !isSpaceChar c)) = true
    · have hshape := base64FormatOk_shape _ hf
      by_cases hl : (s.filter (fun c => !isSpaceChar c)).length % 4 = 0
      · refine ⟨fun ha => by simp [hf, hl, ha], fun h => ?_⟩
        rcases h with h | h
        · exact absurd hshape h
        · exact absurd hl h
      · simp [hf, hl]
    · simp [hf]

/-- Instances of the validation failure: a length that is not a multiple of 4, and a
character outside the alphabet. -/
theorem base64ToUint8Array_invalid_is_empty_witness :
    (base64ToUint8Array "aGVsbG8".toList).length = 0 ∧
    (base64ToUint8Array "aGV$bG8=".toList).length = 0 :=
  ⟨(base64ToUint8Array_invalid_is_empty "aGVsbG8".toList).2 (Or.inr (by decide)),
   (base64ToUint8Array_invalid_is_empty "aGV$bG8=".toList).2 (Or.inl (by
      rintro ⟨body, k, hk, he, hb⟩
      have hm : '$' ∈ body ++ List.replicate k '=' := by rw [← he]; decide
      rcases List.mem_append.1 hm with h | h
      · exact absurd (hb _ h) (by decide)
      · exact absurd (List.eq_of_mem_replicate h) (by decide)))⟩

theorem bytesOfSextets_encodeSextets (bytes : List Nat) (h : ∀ b ∈ bytes, b < 256) :
    bytesOfSextets (encodeSextets bytes) = bytes := by
  induction bytes using encodeSextets.induct with
  | case1 a b c rest ih =>
    have ha := h a (by simp)
    have hb := h b (by simp)
    have hc := h c (by simp)
    have hrest := ih (fun x hx => h x (by simp [hx]))
    simp only [encodeSextets, bytesOfSextets, hrest]
    congr 1
    · omega
    · congr 1
      · omega
      · congr 1
        omega
  | case2 a b =>
    have ha := h a (by simp)
    have hb := h b (by simp)
    simp only [encodeSextets, bytesOfSextets]
    congr 1
    · omega
    · congr 1
      omega
  | case3 a =>
    have ha := h a (by simp)
    simp only [encodeSextets, bytesOfSextets]
    congr 1
    omega
  | case4 => rfl

theorem encodeSextets_lt (bytes : List Nat) (h : ∀ b ∈ bytes, b < 256) :
    ∀ v ∈ encodeSextets bytes, v < 64 := by
  induction bytes using encodeSextets.induct with
  | case1 a b c rest ih =>
    have ha := h a (by simp)
    have hb := h b (by simp)
    have hc := h c (by simp)
    have hrest := ih (fun x hx => h x (by simp [hx]))
    intro v hv
    simp only [encodeSextets, List.mem_cons] at hv
    rcases hv with hv | hv | hv | hv | hv
    · omega
    · omega
    · omega
    · omega
    · exact hrest v hv
  | case2 a b =>
    have ha := h a (by simp)
    have hb := h b (by simp)
    intro v hv
    simp only [encodeSextets, List.mem_cons, List.mem_singleton] at hv
    rcases hv with hv | hv | hv | hv
    · omega
    · omega
    · omega
    · simp at hv
  | case3 a =>
    have ha := h a (by simp)
    intro v hv
    simp only [encodeSextets, List.mem_cons, List.mem_singleton] at hv
    rcases hv with hv | hv | hv
    · omega
    · omega
    · simp at hv
  | case4 => simp [encodeSextets]

theorem encodeSextets_length (bytes : List Nat) :
    (encodeSextets bytes).length =
      4 * (bytes.length / 3) + (if bytes.length % 3 = 0 then 0 else bytes.length % 3 + 1) := by
  induction bytes using encodeSextets.induct with
  | case1 a b c rest ih =>
    simp only [encodeSextets, List.length_cons, ih]
    split <;> split <;> omega
  | case2 a b => simp [encodeSextets]
  | case3 a => simp [encodeSextets]
  | case4 => rfl

theorem sextetsOf_map_sextetChar (vs : List Nat) (h : ∀ v ∈ vs, v < 64) :
    sextetsOf (vs.map sextetChar) = some vs := by
  induction vs with
  | nil => rfl
  | cons v vs ih =>
    have hv := (sextetChar_facts v (h v (by simp))).1
    have hvs := ih (fun x hx => h x (by simp [hx]))
    simp [sextetsOf, hv, hvs]

theorem stripPadding_append_pad (body : Str) (k : Nat) (hk : k ≤ 2)
    (hb : ∀ c ∈ body, c ≠ '=') : stripPadding (body ++ List.replicate k '=') = body := by
  have hbr : body.reverse.reverse = body := List.reverse_reverse _
  have hmem : ∀ c ∈ body.reverse, c ≠ '=' := fun c hc => hb c (List.mem_reverse.1 hc)
  unfold stripPadding
  rw [List.reverse_append, List.reverse_replicate]
  generalize body.reverse = R at hbr hmem
  subst hbr
  cases R with
  | nil => interval_cases k <;> simp [List.replicate]
  | cons c r =>
    have hc : c ≠ '=' := hmem c (by simp)
    interval_cases k
    · simp only [List.replicate, List.nil_append]
      split
      · next heq => simp only [List.cons.injEq] at heq; exact absurd heq.1 hc
      · next heq => simp only [List.cons.injEq] at heq; exact absurd heq.1 hc
      · simp
    · simp only [List.replicate, List.cons_append, List.nil_append]
      split
      · next heq => simp only [List.cons.injEq, true_and] at heq; exact absurd heq.1 hc
      · next heq => simp only [List.cons.injEq, true_and] at heq; rw [← heq]
      · next h1 h2 => exact absurd rfl (h2 _)
    · simp only [List.replicate, List.cons_append, List.nil_append]

theorem dropWhile_append_pad (body : Str) (k : Nat)
    (hb : ∀ c ∈ body, isBase64Char c = true) :
    (body ++ List.replicate k '=').dropWhile isBase64Char = List.replicate k '=' := by
  induction body with
  | nil =>
    cases k with
    | zero => rfl
    | succ k => simp [List.replicate, List.dropWhile, isBase64Char_pad]
  | cons c cs ih =>
    simp only [List.cons_append, List.dropWhile, hb c (by simp)]
    exact ih (fun x hx => hb x (by simp [hx]))

/-- Decoding the standard encoding of a byte sequence gives the byte sequence. -/
theorem base64Encode_decodes (bytes : List Nat) (h : ∀ b ∈ bytes, b < 256) :
    base64ToUint8Array (base64Encode bytes) = bytes := by
  have hlt := encodeSextets_lt bytes h
  have hlen := encodeSextets_length bytes
  have hbody64 : ∀ c ∈ (encodeSextets bytes).map sextetChar, isBase64Char c = true := by
    intro c hc
    obtain ⟨v, hv, rfl⟩ := List.mem_map.1 hc
    exact (sextetChar_facts v (hlt v hv)).2.1
  have hbodyne : ∀ c ∈ (encodeSextets bytes).map sextetChar, c ≠ '=' := by
    intro c hc
    obtain ⟨v, hv, rfl⟩ := List.mem_map.1 hc
    exact (sextetChar_facts v (hlt v hv)).2.2.2.2
  have hk : padCount bytes ≤ 2 := by unfold padCount; omega
  have hfilter : (base64Encode bytes).filter (fun c => !isSpaceChar c) = base64Encode bytes := by
    rw [List.filter_eq_self]
    intro c hc
    rcases List.mem_append.1 hc with hc | hc
    · obtain ⟨v, hv, rfl⟩ := List.mem_map.1 hc
      simp [(sextetChar_facts v (hlt v hv)).2.2.1]
    · rw [List.eq_of_mem_replicate hc]; simp [isSpaceChar_pad]
  have hfilter2 : (base64Encode bytes).filter (fun c => !isAsciiSpace c) = base64Encode bytes := by
    rw [List.filter_eq_self]
    intro c hc
    rcases List.mem_append.1 hc with hc | hc
    · obtain ⟨v, hv, rfl⟩ := List.mem_map.1 hc
      simp [(sextetChar_facts v (hlt v hv)).2.2.2.1]
    · rw [List.eq_of_mem_replicate hc]; simp [isAsciiSpace_pad]
  have hfmt : base64FormatOk (base64Encode bytes) = true := by
    unfold base64FormatOk base64Encode
    rw [dropWhile_append_pad _ _ hbody64]
    have : padCount bytes = 0 ∨ padCount bytes = 1 ∨ padCount bytes = 2 := by omega
    rcases this with h0 | h0 | h0 <;> rw [h0] <;> decide
  have hlen4 : (base64Encode bytes).length % 4 = 0 := by
    unfold base64Encode padCount
    simp only [List.length_append, List.length_map, List.length_replicate, hlen]
    split <;> omega
  have hstrip : stripPadding (base64Encode bytes) = (encodeSextets bytes).map sextetChar :=
    stripPadding_append_pad _ _ hk hbodyne
  have hbodylen : ((encodeSextets bytes).map sextetChar).length % 4 ≠ 1 := by
    simp only [List.length_map, hlen]
    split <;> omega
  have hatob : atob (base64Encode bytes) = some bytes := by
    unfold atob
    simp only [hfilter2, hlen4, if_true, hstrip, hbodylen, if_false,
      sextetsOf_map_sextetChar _ hlt, bytesOfSextets_encodeSextets _ h]
  unfold base64ToUint8Array
  by_cases h0 : base64Encode bytes = []
  · have hb0 : bytes = [] := by
      have hl : (encodeSextets bytes).length = 0 := by
        have := congrArg List.length h0
        simp only [base64Encode, List.length_append, List.length_map, List.length_replicate,
          List.length_nil] at this
        omega
      rw [hlen] at hl
      have : bytes.length = 0 := by
        split at hl <;> omega
      exact List.length_eq_zero.1 this
    subst hb0
    rfl
  · simp only [h0, if_false, hfilter, hfmt, hlen4, hatob]
    simp only [Bool.not_true, Bool.false_eq_true, if_false, ne_eq, not_true_eq_false]
    conv_rhs => rw [← List.map_id bytes]
    apply List.map_congr_left
    intro b hb
    have := h b hb
    simp only [id_eq]
    omega

/-- C7. For every byte sequence, `base64ToUint8Array` applied to its standard padded base64
encoding returns exactly that sequence, with the same length and the same bytes in the same
order, so that encoding the decoded bytes again gives back the payload. -/
theorem base64ToUint8Array_base64Encode (bytes : List Nat) (h : ∀ b ∈ bytes, b < 256) :
    base64ToUint8Array (base64Encode bytes) = bytes ∧
    (base64ToUint8Array (base64Encode bytes)).length = bytes.length ∧
    base64Encode (base64ToUint8Array (base64Encode bytes)) = base64Encode bytes := by
  have hrt := base64Encode_decodes bytes h
  refine ⟨hrt, ?_, ?_⟩
  · rw [hrt]
  · rw [hrt]

/-- An instance of the round trip: the bytes of `hello`, encoded as `aGVsbG8=`. -/
theorem base64ToUint8Array_base64Encode_witness :
    base64Encode [104, 101, 108, 108, 111] = "aGVsbG8=".toList ∧
    (base64ToUint8Array (base64Encode [104, 101, 108, 108, 111]) = [104, 101, 108, 108, 111] ∧
      (base64ToUint8Array (base64Encode [104, 101, 108, 108, 111])).length
        = [104, 101, 108, 108, 111].length ∧
      base64Encode (base64ToUint8Array (base64Encode [104, 101, 108, 108, 111]))
        = base64Encode [104, 101, 108, 108, 111]) :=
  ⟨by decide, base64ToUint8Array_base64Encode [104, 101, 108, 108, 111] (by decide)⟩

/-! ## String primitives: basic facts -/

theorem startsWith_iff (p s : Str) : startsWith p s = true ↔ ∃ t, s = p ++ t := by
  unfold startsWith
  rw [List.isPrefixOf_iff_prefix]
  constructor
  · rintro ⟨t, ht⟩; exact ⟨t, ht.symm⟩
  · rintro ⟨t, ht⟩; exact ⟨t, ht.symm⟩

theorem startsWith_append_self (p t : Str) : startsWith p (p ++ t) = true :=
  (startsWith_iff _ _).2 ⟨t, rfl⟩

theorem startsWith_append_of (p u v : Str) (h : startsWith p u = true) :
    startsWith p (u ++ v) = true := by
  obtain ⟨t, rfl⟩ := (startsWith_iff _ _).1 h
  exact (startsWith_iff _ _).2 ⟨t ++ v, by simp⟩

theorem startsWith_of_append (p u v : Str) (hl : p.length ≤ u.length)
    (h : startsWith p (u ++ v) = true) : startsWith p u = true := by
  obtain ⟨t, ht⟩ := (startsWith_iff _ _).1 h
  refine (startsWith_iff _ _).2 ⟨(u.drop p.length), ?_⟩
  have h1 : (u ++ v).take p.length = p := by rw [ht]; simp
  have h2 : (u ++ v).take p.length = u.take p.length := by
    rw [List.take_append_of_le_length hl]
  rw [h2] at h1
  conv_lhs => rw [← List.take_append_drop p.length u, h1]

theorem startsWith_append_eq (p u v : Str) (hl : p.length ≤ u.length) :
    startsWith p (u ++ v) = startsWith p u := by
  cases h : startsWith p u with
  | true => exact startsWith_append_of _ _ _ h
  | false =>
    cases h2 : startsWith p (u ++ v) with
    | false => rfl
    | true => rw [startsWith_of_append p u v hl h2] at h; exact absurd h (by simp)

theorem startsWith_length_le (p s : Str) (h : startsWith p s = true) : p.length ≤ s.length := by
  obtain ⟨t, rfl⟩ := (startsWith_iff _ _).1 h
  simp

theorem indexOf_nil (p : Str) : indexOf p [] = if startsWith p [] then some 0 else none := rfl

theorem indexOf_cons (p : Str) (c : Char) (cs : Str) :
    indexOf p (c :: cs) =
      if startsWith p (c :: cs) then some 0
      else match indexOf p cs with
        | some i => some (i + 1)
        | none => none := rfl

/-- Characterisation of `indexOf`: the pattern starts at `i` and at no earlier index. -/
theorem indexOf_eq_some_iff (p : Str) : ∀ (s : Str) (i : Nat),
    indexOf p s = some i ↔
      (startsWith p (s.drop i) = true ∧ i ≤ s.length ∧
        ∀ j, j < i → startsWith p (s.drop j) = false)
  | [], i => by
    rw [indexOf_nil]
    cases h : startsWith p [] with
    | true =>
      simp only [if_true, Option.some.injEq]
      constructor
      · rintro rfl; simp [h]
      · rintro ⟨_, h2, _⟩; simp at h2; exact h2.symm
    | false =>
      simp only [Bool.false_eq_true, if_false]
      constructor
      · intro h2; exact absurd h2 (by simp)
      · rintro ⟨h1, _, _⟩; simp [h] at h1
  | c :: cs, i => by
    rw [indexOf_cons]
    have ih := indexOf_eq_some_iff p cs
    cases h : startsWith p (c :: cs) with
    | true =>
      simp only [if_true, Option.some.injEq]
      constructor
      · rintro rfl; simp [h]
      · rintro ⟨_, _, h3⟩
        by_contra hne
        have := h3 0 (by omega)
        simp [h] at this
    | false =>
      simp only [Bool.false_eq_true, if_false]
      cases i with
      | zero =>
        constructor
        · intro h2
          cases hcs : indexOf p cs <;> simp [hcs] at h2
        · rintro ⟨h1, _, _⟩
          simp [h] at h1
      | succ m =>
        have key : indexOf p cs = some m ↔
            (startsWith p ((c :: cs).drop (m + 1)) = true ∧ m + 1 ≤ (c :: cs).length ∧
              ∀ j, j < m + 1 → startsWith p ((c :: cs).drop j) = false) := by
          rw [ih]
          simp only [List.drop_succ_cons, List.length_cons, Nat.add_le_add_iff_right]
          constructor
          · rintro ⟨h1, h2, h3⟩
            refine ⟨h1, h2, fun j hj => ?_⟩
            cases j with
            | zero => simpa using h
            | succ j => simpa using h3 j (by omega)
          · rintro ⟨h1, h2, h3⟩
            refine ⟨h1, h2, fun j hj => ?_⟩
            simpa using h3 (j + 1) (by omega)
        rw [← key]
        cases hcs : indexOf p cs <;> simp

theorem indexOf_eq_none_iff (p s : Str) :
    indexOf p s = none ↔ ∀ j, j ≤ s.length → startsWith p (s.drop j) = false := by
  constructor
  · intro h j hj
    cases hs : startsWith p (s.drop j) with
    | false => rfl
    | true =>
      exfalso
      have hex : ∃ i, i ≤ s.length ∧ startsWith p (s.drop i) = true := ⟨j, hj, hs⟩
      classical
      let i := Nat.find hex
      have hi := Nat.find_spec hex
      have : indexOf p s = some i := by
        rw [indexOf_eq_some_iff]
        refine ⟨hi.2, hi.1, fun k hk => ?_⟩
        have := Nat.find_min hex hk
        cases hk2 : startsWith p (s.drop k) with
        | false => rfl
        | true => exact absurd ⟨by omega, hk2⟩ this
      rw [h] at this
      exact absurd this (by simp)
  · intro h
    cases hs : indexOf p s with
    | none => rfl
    | some i =>
      obtain ⟨h1, h2, _⟩ := (indexOf_eq_some_iff p s i).1 hs
      rw [h i h2] at h1
      exact absurd h1 (by simp)

theorem indexOf_some_bound (p s : Str) (i : Nat) (h : indexOf p s = some i) :
    i + p.length ≤ s.length := by
  obtain ⟨h1, h2, _⟩ := (indexOf_eq_some_iff p s i).1 h
  have := startsWith_length_le _ _ h1
  simp only [List.length_drop] at this
  omega

theorem indexOf_some_decompose (p s : Str) (i : Nat) (h : indexOf p s = some i) :
    s = s.take i ++ p ++ s.drop (i + p.length) := by
  obtain ⟨h1, h2, _⟩ := (indexOf_eq_some_iff p s i).1 h
  obtain ⟨t, ht⟩ := (startsWith_iff _ _).1 h1
  have hd : s.drop (i + p.length) = t := by
    rw [← List.drop_drop, ht]
    simp
  rw [hd, List.append_assoc, ← ht, List.take_append_drop]

theorem indexOf_append_of_some (p s t : Str) (i : Nat) (h : indexOf p s = some i) :
    indexOf p (s ++ t) = some i := by
  have hb := indexOf_some_bound p s i h
  obtain ⟨h1, h2, h3⟩ := (indexOf_eq_some_iff p s i).1 h
  rw [indexOf_eq_some_iff]
  refine ⟨?_, by simp; omega, fun j hj => ?_⟩
  · rw [List.drop_append_of_le_length h2]
    exact startsWith_append_of _ _ _ h1
  · rw [List.drop_append_of_le_length (by omega)]
    rw [startsWith_append_eq _ _ _ (by simp; omega)]
    exact h3 j hj

theorem indexOf_none_of_append (p s t : Str) (h : indexOf p (s ++ t) = none) :
    indexOf p s = none := by
  cases hs : indexOf p s with
  | none => rfl
  | some i =>
    rw [indexOf_append_of_some p s t i hs] at h
    exact absurd h (by simp)

theorem indexOf_none_of_suffix (p u s : Str) (h : indexOf p (u ++ s) = none) :
    indexOf p s = none := by
  rw [indexOf_eq_none_iff] at h ⊢
  intro j hj
  have := h (u.length + j) (by simp; omega)
  rw [List.drop_append] at this
  exact this

theorem indexOf_none_of_short (p s : Str) (h : s.length < p.length) : indexOf p s = none := by
  rw [indexOf_eq_none_iff]
  intro j _
  cases hs : startsWith p (s.drop j) with
  | false => rfl
  | true =>
    have := startsWith_length_le _ _ hs
    simp only [List.length_drop] at this
    omega

theorem indexOf_occurrence (p a b : Str) : ∃ i, indexOf p (a ++ p ++ b) = some i := by
  cases h : indexOf p (a ++ p ++ b) with
  | some i => exact ⟨i, rfl⟩
  | none =>
    rw [indexOf_eq_none_iff] at h
    have := h a.length (by simp)
    rw [List.append_assoc, List.drop_left, startsWith_append_self] at this
    exact absurd this (by simp)

/-! ## Pattern matching: the captures against the patterns' occurrences -/

theorem matchQuoted_cons (key : Str) (c : Char) (cs : Str) :
    matchQuoted key (c :: cs) =
      match (if startsWith (key ++ [dquote]) (c :: cs) then
          (if ((c :: cs).drop (key.length + 1)).takeWhile (fun x => x != dquote) != [] &&
              (((c :: cs).drop (key.length + 1)).drop
                (((c :: cs).drop (key.length + 1)).takeWhile (fun x => x != dquote)).length).head?
                == some dquote
            then some (((c :: cs).drop (key.length + 1)).takeWhile (fun x => x != dquote))
            else none)
          else none) with
      | some r => some r
      | none => matchQuoted key cs := rfl

theorem matchBare_cons (key : Str) (c : Char) (cs : Str) :
    matchBare key (c :: cs) =
      match (if startsWith key (c :: cs) then
          (if ((c :: cs).drop key.length).takeWhile (fun x => x != ';' && !isSpaceChar x) != []
            then some (((c :: cs).drop key.length).takeWhile (fun x => x != ';' && !isSpaceChar x))
            else none)
          else none) with
      | some r => some r
      | none => matchBare key cs := rfl

theorem drop_length_takeWhile (f : Char → Bool) (l : Str) :
    l.drop (l.takeWhile f).length = l.dropWhile f := by
  induction l with
  | nil => rfl
  | cons c cs ih =>
    cases h : f c with
    | true => simp [List.takeWhile, List.dropWhile, h, ih]
    | false => simp [List.takeWhile, List.dropWhile, h]

theorem matchBare_eq_none_iff (key : Str) (s : Str) :
    matchBare key s = none ↔ ¬ BareOccurs key s := by
  induction s with
  | nil =>
    simp only [matchBare, true_iff]
    rintro ⟨p, c, q, h, _⟩
    have := congrArg List.length h
    simp at this
    omega
  | cons d ds ih =>
    rw [matchBare_cons]
    constructor
    · intro h ⟨p, c, q, hs, hc1, hc2⟩
      cases p with
      | nil =>
        have hsw : startsWith key (d :: ds) = true :=
          (startsWith_iff _ _).2 ⟨c :: q, by simpa using hs⟩
        have hdrop : (d :: ds).drop key.length = c :: q := by rw [hs]; simp
        have hok : (c != ';' && !isSpaceChar c) = true := by simp [hc1, hc2]
        have htw : List.takeWhile (fun x => x != ';' && !isSpaceChar x) (c :: q) =
            c :: List.takeWhile (fun x => x != ';' && !isSpaceChar x) q :=
          List.takeWhile_cons_of_pos hok
        rw [hsw, hdrop, htw] at h
        simp at h
      | cons x p =>
        simp only [List.cons_append, List.cons.injEq] at hs
        have hds : BareOccurs key ds := ⟨p, c, q, hs.2, hc1, hc2⟩
        have : matchBare key ds = none := by
          split at h
          · exact absurd h (by simp)
          · exact h
        exact (ih.1 this) hds
    · intro h
      have hds : matchBare key ds = none :=
        ih.2 (fun ⟨p, c, q, hs, hc⟩ => h ⟨d :: p, c, q, by simp [hs], hc⟩)
      rw [hds]
      cases hsw : startsWith key (d :: ds) with
      | false => simp
      | true =>
        obtain ⟨t, ht⟩ := (startsWith_iff _ _).1 hsw
        have hdrop : (d :: ds).drop key.length = t := by rw [ht]; simp
        rw [hdrop]
        cases t with
        | nil => simp
        | cons c q =>
          by_cases hc : c ≠ ';' ∧ isSpaceChar c = false
          · exact absurd ⟨[], c, q, by simpa using ht, hc.1, hc.2⟩ h
          · have : (c != ';' && !isSpaceChar c) = false := by
              by_cases h1 : c = ';'
              · simp [h1]
              · have h2 : isSpaceChar c = true := by
                  cases h3 : isSpaceChar c with
                  | true => rfl
                  | false => exact absurd ⟨h1, h3⟩ hc
                simp [h2]
            simp [List.takeWhile, this]

theorem bareOccurs_of_quotedOccurs (key s : Str) (h : QuotedOccurs key s) : BareOccurs key s := by
  obtain ⟨p, b, q, hs, _, _⟩ := h
  exact ⟨p, dquote, b ++ dquote :: q, hs, by decide, by decide⟩

theorem matchQuoted_eq_none_of (key s : Str) (h : ¬ QuotedOccurs key s) :
    matchQuoted key s = none := by
  induction s with
  | nil => rfl
  | cons d ds ih =>
    rw [matchQuoted_cons]
    have hds : matchQuoted key ds = none :=
      ih (fun ⟨p, b, q, hs, hb⟩ => h ⟨d :: p, b, q, by simp [hs], hb⟩)
    rw [hds]
    cases hsw : startsWith (key ++ [dquote]) (d :: ds) with
    | false => simp
    | true =>
      obtain ⟨t, ht⟩ := (startsWith_iff _ _).1 hsw
      have hdrop : (d :: ds).drop (key.length + 1) = t := by
        rw [ht]
        have : key.length + 1 = (key ++ [dquote]).length := by simp
        rw [this, List.drop_left]
      rw [hdrop]
      simp only [if_true]
      by_cases hrun : t.takeWhile (fun x => x != dquote) = []
      · simp [hrun]
      · cases hnext : (t.drop (t.takeWhile (fun x => x != dquote)).length).head? == some dquote with
        | false => simp
        | true =>
          exfalso
          apply h
          have hsplit := (List.takeWhile_append_dropWhile (fun x => x != dquote) t).symm
          have hdw : t.drop (t.takeWhile (fun x => x != dquote)).length =
              t.dropWhile (fun x => x != dquote) := drop_length_takeWhile _ t
          rw [hdw] at hnext
          cases hq : t.dropWhile (fun x => x != dquote) with
          | nil => rw [hq] at hnext; simp at hnext
          | cons e q =>
            rw [hq] at hnext hsplit
            simp only [List.head?_cons, beq_iff_eq, Option.some.injEq] at hnext
            subst hnext
            refine ⟨[], t.takeWhile (fun x => x != dquote), q, ?_, hrun, fun c hc => ?_⟩
            · rw [ht]
              conv_lhs => rw [hsplit]
              simp
            · have := List.mem_takeWhile_imp hc
              simpa using this

/-- C3. For every string in which neither boundary pattern occurs, `parseEmailFromString`
returns no attachment and the input itself as clean body. -/
theorem parseEmailFromString_non_multipart (upload : Uploader) (s : Str)
    (hq : ¬ QuotedOccurs "boundary=".toList s) (hb : ¬ BareOccurs "boundary=".toList s) :
    parseEmailFromString upload s = ⟨[], s⟩ := by
  unfold parseEmailFromString matchBoundary
  rw [matchQuoted_eq_none_of _ _ hq, (matchBare_eq_none_iff _ _).2 hb]

/-- An instance: a message without a boundary parameter, though it quotes an attachment
header, comes back unchanged. -/
theorem parseEmailFromString_non_multipart_witness :
    parseEmailFromString okUpload "Subject: hi\n\nContent-Disposition: attachment; filename=a\n\naGk=".toList =
      ⟨[], "Subject: hi\n\nContent-Disposition: attachment; filename=a\n\naGk=".toList⟩ :=
  parseEmailFromString_non_multipart okUpload _
    (fun h => (matchBare_eq_none_iff _ _).1 (by decide)
      (bareOccurs_of_quotedOccurs _ _ h))
    ((matchBare_eq_none_iff _ _).1 (by decide))

/-! ## The streaming parser on whole messages -/

set_option maxRecDepth 100000 in
/-- C2 (defect). A message with one attachment part and one body part: delivered as a single
chunk, `streamParseEmail` scans no part at all (the buffer is only scanned after a further
read) and returns no attachment record; delivered as a header chunk and a body chunk, the
attachment is recorded but the header block is submitted as the first part and comes back
inside the clean body as a body part. The record's `type` is the one `isVideoFile` gives
for `a.txt`, which is `regular` as soon as `toLowerCase` leaves `a.txt` as it is. -/
theorem streamParseEmail_misses_parts_and_copies_header (toLowerCase : Str → Str) :
    streamParseEmail toLowerCase okUpload (RawContent.stream [asciiChunk
        (sampleHeader ++ "--X".toList ++ sampleAttachmentPart ++ "--X".toList ++ sampleBodyPart
          ++ "--X--".toList)])
      = ⟨[], sampleHeader⟩ ∧
    streamParseEmail toLowerCase okUpload (RawContent.stream [asciiChunk sampleHeader, asciiChunk
        ("--X".toList ++ sampleAttachmentPart ++ "--X".toList ++ sampleBodyPart
          ++ "--X--".toList)])
      = ⟨[⟨"a.txt".toList, "https://files.example/a.txt".toList, 5,
            "application/octet-stream".toList,
            some (if isVideoFile toLowerCase "a.txt".toList then "video" else "regular").toList⟩],
          sampleHeader ++ "--X\n".toList ++ sampleHeader ++ "\n--X\n".toList ++ sampleBodyPart
            ++ "\n--X--".toList⟩ ∧
    (toLowerCase "a.txt".toList = "a.txt".toList →
      isVideoFile toLowerCase "a.txt".toList = false) :=
  ⟨by rfl, by rfl, fun h => by
    unfold isVideoFile lowerExtension
    rw [h]
    decide⟩

set_option maxRecDepth 100000 in
/-- C4 (defect). A non-multipart message delivered as a stream, in one chunk or in two: the
clean body returned is the header block alone, the blank line and the body are lost. -/
theorem streamParseEmail_non_multipart_returns_header_only (toLowerCase : Str → Str) :
    streamParseEmail toLowerCase okUpload
        (RawContent.stream [asciiChunk "Subject: hi\n\nbody text".toList])
      = ⟨[], "Subject: hi".toList⟩ ∧
    streamParseEmail toLowerCase okUpload (RawContent.stream
        [asciiChunk "Subject: hi\n".toList, asciiChunk "\nbody text".toList])
      = ⟨[], "Subject: hi".toList⟩ :=
  ⟨by rfl, by rfl⟩

theorem readHeader_without_blank_line : ∀ (chunks : List Chunk) (buffer : Str) (total : Nat),
    indexOf "\n\n".toList (buffer ++ (chunks.map (fun c => c.text)).flatten) = none →
    (readHeader chunks buffer total).headerContent = [] ∧
    (readHeader chunks buffer total).boundary = none
  | [], _, _, _ => ⟨rfl, rfl⟩
  | chunk :: rest, buffer, total, h => by
    unfold readHeader
    by_cases hcap : total < maxHeaderSize
    · simp only [hcap, if_true]
      simp only [List.map_cons, List.flatten_cons, ← List.append_assoc] at h
      have hnone := indexOf_none_of_append _ _ _ h
      rw [hnone]
      exact readHeader_without_blank_line rest (buffer ++ chunk.text) (total + chunk.size) h
    · simp [hcap]

/-- Whatever the stream delivers, as long as no `\n\n` occurs in its text (in particular
when the header limit is reached first), the result is no attachment and an empty clean
body. -/
theorem streamParseEmail_without_blank_line (toLowerCase : Str → Str) (upload : Uploader)
    (chunks : List Chunk)
    (h : indexOf "\n\n".toList (chunks.map (fun c => c.text)).flatten = none) :
    streamParseEmail toLowerCase upload (RawContent.stream chunks) = ⟨[], []⟩ := by
  obtain ⟨h1, h2⟩ := readHeader_without_blank_line chunks [] 0 (by simpa using h)
  unfold streamParseEmail
  simp only [h1, h2]

theorem indexOf_blank_line_replicate (n : Nat) :
    indexOf "\n\n".toList (List.replicate n 'a') = none := by
  induction n with
  | zero => decide
  | succ n ih =>
    rw [List.replicate_succ, indexOf_cons, ih]
    have : startsWith "\n\n".toList ('a' :: List.replicate n 'a') = false := by
      simp [startsWith, List.isPrefixOf]
    rw [this]
    rfl

theorem streamParseEmail_overflow_general (toLowerCase : Str → Str) (n : Nat) :
    streamParseEmail toLowerCase okUpload (RawContent.stream [asciiChunk (List.replicate n 'a')])
      = ⟨[], []⟩ := by
  apply streamParseEmail_without_blank_line
  simp only [List.map_cons, List.map_nil, List.flatten_cons, List.flatten_nil, List.append_nil,
    asciiChunk]
  exact indexOf_blank_line_replicate n

/-- C8 (defect). A stream that delivers 64 KiB of text without a blank line: the call
returns no attachment, and a clean body that is empty rather than the accumulated text. -/
theorem streamParseEmail_header_overflow_returns_empty (toLowerCase : Str → Str) :
    maxHeaderSize ≤ (asciiChunk (List.replicate 65536 'a')).size ∧
    streamParseEmail toLowerCase okUpload
        (RawContent.stream [asciiChunk (List.replicate 65536 'a')])
      = ⟨[], []⟩ ∧
    (streamParseEmail toLowerCase okUpload
        (RawContent.stream [asciiChunk (List.replicate 65536 'a')])).cleanBody
      ≠ List.replicate 65536 'a' := by
  refine ⟨?_, streamParseEmail_overflow_general toLowerCase 65536, ?_⟩
  · show maxHeaderSize ≤ (List.replicate 65536 'a').length
    rw [List.length_replicate]
    decide
  · rw [streamParseEmail_overflow_general toLowerCase 65536]
    intro hc
    have := congrArg List.length hc
    rw [List.length_replicate] at this
    exact absurd this (by decide)

/-! ## Parts with an attachment disposition and no filename -/

theorem processEmailPart_without_filename (toLowerCase : Str → Str) (upload : Uploader)
    (st : ParseState) (part : Str)
    (hd : hasAttachmentDisposition part = true) (hf : matchFilename part = none) :
    processEmailPart toLowerCase upload st part = st ∧ stringPartStep upload st part = st := by
  unfold processEmailPart stringPartStep
  simp only [hd, if_true, hf]
  trivial

set_option maxRecDepth 100000 in
/-- C9 (defect). A part with `Content-Disposition: attachment` and no filename parameter is
not retained: `processEmailPart` and the loop of `parseEmailFromString` leave both
accumulators as they were, so the part is in neither the attachment list nor the clean body,
in the string parser and in the streaming parser. -/
theorem attachment_without_filename_is_dropped :
    (∀ (toLowerCase : Str → Str) (upload : Uploader) (st : ParseState),
      processEmailPart toLowerCase upload st namelessAttachmentPart = st ∧
      stringPartStep upload st namelessAttachmentPart = st) ∧
    parseEmailFromString okUpload
        (sampleHeader ++ "--X".toList ++ namelessAttachmentPart ++ "--X".toList ++ sampleBodyPart
          ++ "--X--".toList)
      = ⟨[], sampleHeader ++ "\n\n".toList ++ "--X".toList ++ sampleBodyPart ++ "--X--".toList⟩ ∧
    (∀ (toLowerCase : Str → Str),
      streamParseEmail toLowerCase okUpload (RawContent.stream [asciiChunk sampleHeader,
        asciiChunk ("--X".toList ++ namelessAttachmentPart ++ "--X".toList ++ sampleBodyPart
          ++ "--X--".toList)])
      = ⟨[], sampleHeader ++ "--X\n".toList ++ sampleHeader ++ "\n--X\n".toList ++ sampleBodyPart
            ++ "\n--X--".toList⟩) :=
  ⟨fun toLowerCase upload st =>
      processEmailPart_without_filename toLowerCase upload st _ (by decide) (by decide),
    by decide, fun _ => by rfl⟩

set_option maxRecDepth 100000 in
/-- C10 (defect). A streamed message with an attachment part that fails: because its content
does not decode, because the upload raises, or because it has no blank line. In each case
the call returns and records no attachment for the part, but the part, kept in `bodyParts`
with type `attachment`, is filtered out of the clean body, which does not contain its text.
The string parser, on a failed upload, writes the part into its clean body. -/
theorem streamParseEmail_failed_attachment_is_lost (toLowerCase : Str → Str) :
    processEmailPart toLowerCase okUpload ⟨[], []⟩ brokenAttachmentPart
      = ⟨[], [⟨PartType.attachment, brokenAttachmentPart, some "a.txt".toList⟩]⟩ ∧
    streamParseEmail toLowerCase okUpload (RawContent.stream [asciiChunk sampleHeader, asciiChunk
        ("--X".toList ++ brokenAttachmentPart ++ "--X".toList ++ sampleBodyPart
          ++ "--X--".toList)])
      = ⟨[], sampleHeader ++ "--X\n".toList ++ sampleHeader ++ "\n--X\n".toList ++ sampleBodyPart
            ++ "\n--X--".toList⟩ ∧
    includes brokenAttachmentPart
      (streamParseEmail toLowerCase okUpload (RawContent.stream [asciiChunk sampleHeader, asciiChunk
        ("--X".toList ++ brokenAttachmentPart ++ "--X".toList ++ sampleBodyPart
          ++ "--X--".toList)])).cleanBody = false ∧
    streamParseEmail toLowerCase (fun _ _ => none) (RawContent.stream [asciiChunk sampleHeader,
        asciiChunk ("--X".toList ++ sampleAttachmentPart ++ "--X".toList ++ sampleBodyPart
          ++ "--X--".toList)])
      = ⟨[], sampleHeader ++ "--X\n".toList ++ sampleHeader ++ "\n--X\n".toList ++ sampleBodyPart
            ++ "\n--X--".toList⟩ ∧
    streamParseEmail toLowerCase okUpload (RawContent.stream [asciiChunk sampleHeader, asciiChunk
        ("--X".toList ++ headerOnlyAttachmentPart ++ "--X".toList ++ sampleBodyPart
          ++ "--X--".toList)])
      = ⟨[], sampleHeader ++ "--X\n".toList ++ sampleHeader ++ "\n--X\n".toList ++ sampleBodyPart
            ++ "\n--X--".toList⟩ ∧
    includes sampleAttachmentPart
      (parseEmailFromString (fun _ _ => none)
        (sampleHeader ++ "--X".toList ++ sampleAttachmentPart ++ "--X".toList ++ sampleBodyPart
          ++ "--X--".toList)).cleanBody = true :=
  ⟨by rfl, by rfl, by rfl, by rfl, by rfl, by decide⟩

/-! ## The body stream: independence of the chunking -/

theorem drainLoop_fuel {σ : Type} (handle : σ → Str → σ) (marker : Str)
    (hM : 0 < marker.length) : ∀ (fuel fuel2 : Nat) (buffer : Str) (st : σ),
    buffer.length < fuel → buffer.length < fuel2 →
    drainLoop handle marker fuel buffer st = drainLoop handle marker fuel2 buffer st
  | 0, _, _, _, h, _ => absurd h (by omega)
  | _ + 1, 0, _, _, _, h => absurd h (by omega)
  | fuel + 1, fuel2 + 1, buffer, st, h1, h2 => by
    unfold drainLoop
    cases hi : indexOf marker buffer with
    | none => rfl
    | some i =>
      have hb := indexOf_some_bound _ _ _ hi
      simp only
      split
      · rfl
      · apply drainLoop_fuel handle marker hM
        · simp only [List.length_drop]; omega
        · simp only [List.length_drop]; omega

/-- The inner loop, unfolded once. -/
theorem drain_eq {σ : Type} (handle : σ → Str → σ) (marker : Str) (hM : 0 < marker.length)
    (buffer : Str) (st : σ) :
    drain handle marker buffer st =
      match indexOf marker buffer with
      | none => (buffer, st)
      | some i =>
        if startsWith "--".toList (buffer.drop (i + marker.length)) then
          (buffer.drop (i + marker.length),
            if trim (buffer.take i) ≠ [] then handle st (buffer.take i) else st)
        else
          drain handle marker (buffer.drop (i + marker.length))
            (if trim (buffer.take i) ≠ [] then handle st (buffer.take i) else st) := by
  unfold drain
  conv_lhs => unfold drainLoop
  cases hi : indexOf marker buffer with
  | none => rfl
  | some i =>
    have hb := indexOf_some_bound _ _ _ hi
    simp only
    split
    · rfl
    · apply drainLoop_fuel handle marker hM
      · simp only [List.length_drop]; omega
      · simp only [List.length_drop]; omega

theorem includes_eq_false_iff (p s : Str) : includes p s = false ↔ indexOf p s = none := by
  unfold includes
  cases indexOf p s <;> simp

theorem terminalIsLast_of_append (marker t z : Str) (h : TerminalIsLast marker (t ++ z)) :
    TerminalIsLast marker t := by
  intro p q ht hq
  have := h p (q ++ z) (by rw [ht]; simp) (startsWith_append_of _ _ _ hq)
  rw [includes_eq_false_iff] at this ⊢
  exact indexOf_none_of_append _ _ _ this

theorem terminalIsLast_of_suffix (marker u t : Str) (h : TerminalIsLast marker (u ++ t)) :
    TerminalIsLast marker t := by
  intro p q ht hq
  exact h (u ++ p) q (by rw [ht]; simp) hq

theorem drain_suffix {σ : Type} (handle : σ → Str → σ) (marker : Str) (hM : 0 < marker.length) :
    ∀ (n : Nat) (buffer : Str) (st : σ), buffer.length ≤ n →
      ∃ u, buffer = u ++ (drain handle marker buffer st).1
  | 0, buffer, st, hn => by
    have : buffer = [] := List.length_eq_zero.1 (by omega)
    subst this
    rw [drain_eq handle marker hM, indexOf_none_of_short _ _ (by simpa using hM)]
    exact ⟨[], rfl⟩
  | n + 1, buffer, st, hn => by
    rw [drain_eq handle marker hM]
    cases hi : indexOf marker buffer with
    | none => exact ⟨[], rfl⟩
    | some i =>
      have hb := indexOf_some_bound _ _ _ hi
      simp only
      split
      · exact ⟨buffer.take (i + marker.length), (List.take_append_drop _ _).symm⟩
      · obtain ⟨u, hu⟩ := drain_suffix handle marker hM n (buffer.drop (i + marker.length))
          (if trim (buffer.take i) ≠ [] then handle st (buffer.take i) else st)
          (by simp only [List.length_drop]; omega)
        refine ⟨buffer.take (i + marker.length) ++ u, ?_⟩
        rw [List.append_assoc, ← hu, List.take_append_drop]

/-- Draining `x ++ y` is draining `x`, then draining what is left of `x` followed by `y`. -/
theorem drain_append {σ : Type} (handle : σ → Str → σ) (marker : Str) (hM : 0 < marker.length) :
    ∀ (n : Nat) (x y : Str) (st : σ), x.length ≤ n → TerminalIsLast marker (x ++ y) →
      drain handle marker (x ++ y) st =
        drain handle marker ((drain handle marker x st).1 ++ y) (drain handle marker x st).2
  | 0, x, y, st, hn, _ => by
    have : x = [] := List.length_eq_zero.1 (by omega)
    subst this
    have h0 : drain handle marker [] st = ([], st) := by
      rw [drain_eq handle marker hM, indexOf_none_of_short _ _ (by simpa using hM)]
    rw [h0]
  | n + 1, x, y, st, hn, hT => by
    cases hi : indexOf marker x with
    | none =>
      have hx : drain handle marker x st = (x, st) := by
        rw [drain_eq handle marker hM, hi]
      rw [hx]
    | some i =>
      have hb := indexOf_some_bound _ _ _ hi
      have hxy := indexOf_append_of_some marker x y i hi
      have hdrop : (x ++ y).drop (i + marker.length) = x.drop (i + marker.length) ++ y :=
        List.drop_append_of_le_length hb
      have htake : (x ++ y).take i = x.take i :=
        List.take_append_of_le_length (by omega)
      have hdecomp : x ++ y = x.take i ++ marker ++ (x.drop (i + marker.length) ++ y) := by
        conv_lhs => rw [indexOf_some_decompose marker x i hi]
        simp
      have hTrest : TerminalIsLast marker (x.drop (i + marker.length) ++ y) := by
        rw [hdecomp] at hT
        exact terminalIsLast_of_suffix _ (x.take i ++ marker) _ hT
      have hnone_of_term : startsWith "--".toList (x.drop (i + marker.length) ++ y) = true →
          indexOf marker (x.drop (i + marker.length) ++ y) = none := by
        intro hs
        exact (includes_eq_false_iff _ _).1 (hT _ _ hdecomp hs)
      rw [drain_eq handle marker hM (x ++ y), hxy, drain_eq handle marker hM x, hi]
      simp only [hdrop, htake]
      cases hsx : startsWith "--".toList (x.drop (i + marker.length)) with
      | true =>
        have hsxy := startsWith_append_of _ _ y hsx
        simp only [hsxy, if_true]
        rw [drain_eq handle marker hM, hnone_of_term hsxy]
      | false =>
        simp only [Bool.false_eq_true, if_false]
        cases hsxy : startsWith "--".toList (x.drop (i + marker.length) ++ y) with
        | true =>
          simp only [if_true]
          have hn1 := hnone_of_term hsxy
          have hn2 := indexOf_none_of_append _ _ _ hn1
          rw [drain_eq handle marker hM (x.drop (i + marker.length)), hn2]
          simp only
          rw [drain_eq handle marker hM, hn1]
        | false =>
          simp only [Bool.false_eq_true, if_false]
          exact drain_append handle marker hM n _ y _
            (by simp only [List.length_drop]; omega) hTrest

theorem readBody_eq_drain {σ : Type} (handle : σ → Str → σ) (marker : Str)
    (hM : 0 < marker.length) : ∀ (chunks : List Str) (buffer : Str) (st : σ),
    drain handle marker buffer st = (buffer, st) →
    TerminalIsLast marker (buffer ++ chunks.flatten) →
    readBody handle marker chunks buffer st = drain handle marker (buffer ++ chunks.flatten) st
  | [], buffer, st, hfix, _ => by
    simp only [readBody, List.flatten_nil, List.append_nil, hfix]
  | chunk :: rest, buffer, st, _, hT => by
    simp only [readBody, List.flatten_cons] at hT ⊢
    rw [← List.append_assoc] at hT ⊢
    have hTbc := terminalIsLast_of_append _ _ _ hT
    obtain ⟨u, hu⟩ := drain_suffix handle marker hM _ (buffer ++ chunk) st (le_refl _)
    have hidem := drain_append handle marker hM _ (buffer ++ chunk) [] st (le_refl _)
      (by simpa using hTbc)
    simp only [List.append_nil] at hidem
    rw [readBody_eq_drain handle marker hM rest _ _ hidem.symm
      (by
        rw [hu, List.append_assoc] at hT
        exact terminalIsLast_of_suffix _ _ _ hT)]
    exact (drain_append handle marker hM _ (buffer ++ chunk) rest.flatten st (le_refl _) hT).symm

theorem boundaryMarker_length_pos (boundary : Str) : 0 < (boundaryMarker boundary).length := by
  simp [boundaryMarker]

/-- The result of `processEmailBodyStream`, over any part handler, does not depend on how
the text is cut into chunks. -/
theorem bodyStream_chunking {σ : Type} (handle : σ → Str → σ) (boundary t : Str)
    (chunks : List Str) (st : σ) (hch : chunks.flatten = t)
    (hterm : TerminalIsLast (boundaryMarker boundary) t) :
    bodyStream handle boundary chunks [] st = bodyStream handle boundary [t] [] st := by
  have hM := boundaryMarker_length_pos boundary
  have h0 : drain handle (boundaryMarker boundary) [] st = ([], st) := by
    rw [drain_eq handle _ hM, indexOf_none_of_short _ _ (by simpa using hM)]
  have h1 := readBody_eq_drain handle _ hM chunks [] st h0 (by simpa [hch] using hterm)
  have h2 : readBody handle (boundaryMarker boundary) [t] [] st =
      drain handle (boundaryMarker boundary) t st := by
    simp [readBody]
  unfold bodyStream
  rw [h1, h2]
  simp [hch]

/-- If no marker follows the first terminal marker, none follows any terminal marker. -/
theorem terminalIsLast_of_first (marker t : Str)
    (hfirst : ∀ p q, t = p ++ marker ++ q → startsWith "--".toList q = true →
      (∀ p2 q2, t = p2 ++ marker ++ q2 → startsWith "--".toList q2 = true →
        p.length ≤ p2.length) →
      includes marker q = false) :
    TerminalIsLast marker t := by
  intro p q ht hq
  have hex : ∃ n, ∃ p0 q0, t = p0 ++ marker ++ q0 ∧ startsWith "--".toList q0 = true ∧
      p0.length = n := ⟨p.length, p, q, ht, hq, rfl⟩
  classical
  obtain ⟨p0, q0, ht0, hq0, hlen0⟩ := Nat.find_spec hex
  have hmin : ∀ p2 q2, t = p2 ++ marker ++ q2 → startsWith "--".toList q2 = true →
      p0.length ≤ p2.length := by
    intro p2 q2 h2 hs2
    rw [hlen0]
    exact Nat.find_min' hex ⟨p2, q2, h2, hs2, rfl⟩
  have h0 := hfirst p0 q0 ht0 hq0 hmin
  have hle : p0.length ≤ p.length := hmin p q ht hq
  have hq0d : q0 = t.drop (p0.length + marker.length) := by
    rw [ht0, List.append_assoc, ← List.drop_drop, List.drop_left, List.drop_left]
  have hqd : q = t.drop (p.length + marker.length) := by
    rw [ht, List.append_assoc, ← List.drop_drop, List.drop_left, List.drop_left]
  have hsuf : q0 = q0.take (p.length - p0.length) ++ q := by
    have : q = q0.drop (p.length - p0.length) := by
      rw [hqd, hq0d, List.drop_drop]
      congr 1
      omega
    rw [this, List.take_append_drop]
  rw [includes_eq_false_iff] at h0 ⊢
  rw [hsuf] at h0
  exact indexOf_none_of_suffix _ _ _ h0

/-- C5. For every boundary `b` and every text in which no `--b` occurs after the first `--b`
that is immediately followed by `--`, and for every division of the text into consecutive
chunks, `processEmailBodyStream` started with an empty buffer submits to `processEmailPart`
the same sequence of parts as when the text arrives as one chunk: a marker cut by a chunk
border is found exactly once. -/
theorem submittedParts_chunking (boundary t : Str) (chunks : List Str)
    (hch : chunks.flatten = t)
    (hterm : ∀ p q, t = p ++ boundaryMarker boundary ++ q → startsWith "--".toList q = true →
      (∀ p2 q2, t = p2 ++ boundaryMarker boundary ++ q2 → startsWith "--".toList q2 = true →
        p.length ≤ p2.length) →
      includes (boundaryMarker boundary) q = false) :
    submittedParts boundary chunks [] = submittedParts boundary [t] [] := by
  have hall : TerminalIsLast (boundaryMarker boundary) t := terminalIsLast_of_first _ _ hterm
  unfold submittedParts
  exact bodyStream_chunking _ boundary t chunks [] hch hall

/-! ## The string parser on well-formed multipart messages -/

theorem matchQuoted_ne_nil (key : Str) : ∀ (s b : Str), matchQuoted key s = some b → b ≠ []
  | [], _, h => by simp [matchQuoted] at h
  | c :: cs, b, h => by
    rw [matchQuoted_cons] at h
    split at h
    · next r heq =>
      simp only [Option.some.injEq] at h
      subst h
      split at heq
      · split at heq
        · next hcond =>
          simp only [Option.some.injEq] at heq
          subst heq
          simp only [Bool.and_eq_true, bne_iff_ne, ne_eq] at hcond
          exact hcond.1
        · exact absurd heq (by simp)
      · exact absurd heq (by simp)
    · exact matchQuoted_ne_nil key cs b h

theorem matchBare_ne_nil (key : Str) : ∀ (s b : Str), matchBare key s = some b → b ≠ []
  | [], _, h => by simp [matchBare] at h
  | c :: cs, b, h => by
    rw [matchBare_cons] at h
    split at h
    · next r heq =>
      simp only [Option.some.injEq] at h
      subst h
      split at heq
      · split at heq
        · next hcond =>
          simp only [Option.some.injEq] at heq
          subst heq
          simpa using hcond
        · exact absurd heq (by simp)
      · exact absurd heq (by simp)
    · exact matchBare_ne_nil key cs b h

theorem matchBoundary_ne_nil (s b : Str) (h : matchBoundary s = some b) : b ≠ [] := by
  unfold matchBoundary at h
  split at h
  · next r heq =>
    simp only [Option.some.injEq] at h
    subst h
    exact matchQuoted_ne_nil _ _ _ heq
  · exact matchBare_ne_nil _ _ _ h

theorem splitLoop_fuel (sep : Str) (hsep : 0 < sep.length) :
    ∀ (fuel fuel2 : Nat) (acc s : Str), s.length < fuel → s.length < fuel2 →
      splitLoop sep fuel acc s = splitLoop sep fuel2 acc s
  | 0, _, _, _, h, _ => absurd h (by omega)
  | _ + 1, 0, _, _, _, h => absurd h (by omega)
  | fuel + 1, fuel2 + 1, acc, s, h1, h2 => by
    unfold splitLoop
    cases s with
    | nil => rfl
    | cons c cs =>
      simp only
      split
      · congr 1
        apply splitLoop_fuel sep hsep
        · simp only [List.length_drop, List.length_cons] at h1 ⊢; omega
        · simp only [List.length_drop, List.length_cons] at h2 ⊢; omega
      · apply splitLoop_fuel sep hsep
        · simp only [List.length_cons] at h1; omega
        · simp only [List.length_cons] at h2; omega

theorem splitLoop_cons (sep : Str) (hsep : 0 < sep.length) (acc : Str) (c : Char) (cs : Str) :
    splitLoop sep ((c :: cs).length + 1) acc (c :: cs) =
      if startsWith sep (c :: cs) then
        acc.reverse :: splitLoop sep (((c :: cs).drop sep.length).length + 1) []
          ((c :: cs).drop sep.length)
      else splitLoop sep (cs.length + 1) (c :: acc) cs := by
  conv_lhs => unfold splitLoop
  simp only
  split
  · congr 1
    apply splitLoop_fuel sep hsep
    · simp only [List.length_drop, List.length_cons]; omega
    · omega
  · rfl

theorem splitLoop_no_occurrence (sep : Str) (hsep : 0 < sep.length) :
    ∀ (s acc : Str), indexOf sep s = none →
      splitLoop sep (s.length + 1) acc s = [acc.reverse ++ s]
  | [], acc, _ => by simp [splitLoop]
  | c :: cs, acc, h => by
    rw [splitLoop_cons sep hsep]
    rw [indexOf_cons] at h
    cases hs : startsWith sep (c :: cs) with
    | true => simp [hs] at h
    | false =>
      simp only [hs, Bool.false_eq_true, if_false] at h ⊢
      have hcs : indexOf sep cs = none := by
        cases hi : indexOf sep cs with
        | none => rfl
        | some i => simp [hi] at h
      rw [splitLoop_no_occurrence sep hsep cs (c :: acc) hcs]
      simp

theorem splitLoop_first (sep : Str) (hsep : 0 < sep.length) (rest : Str) :
    ∀ (x acc : Str), indexOf sep (x ++ sep) = some x.length →
      splitLoop sep ((x ++ sep ++ rest).length + 1) acc (x ++ sep ++ rest) =
        (acc.reverse ++ x) :: splitLoop sep (rest.length + 1) [] rest
  | [], acc, _ => by
    cases hsr : sep ++ rest with
    | nil =>
      have : sep = [] := (List.append_eq_nil.1 hsr).1
      rw [this] at hsep
      simp at hsep
    | cons c cs =>
      simp only [List.nil_append, List.append_nil, hsr]
      rw [splitLoop_cons sep hsep]
      have : startsWith sep (c :: cs) = true := by
        rw [← hsr]; exact startsWith_append_self _ _
      simp only [this, if_true]
      have hd : (c :: cs).drop sep.length = rest := by rw [← hsr]; simp
      rw [hd]
  | c :: x, acc, h => by
    have hnot : startsWith sep (c :: x ++ sep ++ rest) = false := by
      obtain ⟨_, _, h3⟩ := (indexOf_eq_some_iff _ _ _).1 h
      have := h3 0 (by simp)
      simp only [List.drop_zero] at this
      rw [startsWith_append_eq _ _ _ (by simp; omega)]
      exact this
    have hx : indexOf sep (x ++ sep) = some x.length := by
      rw [List.cons_append, indexOf_cons] at h
      have hnot2 : startsWith sep (c :: (x ++ sep)) = false := by
        cases hs : startsWith sep (c :: (x ++ sep)) with
        | false => rfl
        | true => simp [hs] at h
      simp only [hnot2, Bool.false_eq_true, if_false] at h
      cases hi : indexOf sep (x ++ sep) with
      | none => simp [hi] at h
      | some i =>
        simp only [hi, Option.some.injEq, List.length_cons] at h
        have : i = x.length := by omega
        rw [this]
    have := splitLoop_cons sep hsep acc c (x ++ sep ++ rest)
    simp only [List.cons_append] at hnot this ⊢
    rw [this]
    simp only [hnot, Bool.false_eq_true, if_false]
    rw [splitLoop_first sep hsep rest x (c :: acc) hx]
    simp

theorem split_message (marker header : Str) (hM : 2 < marker.length)
    (hh : indexOf marker (header ++ marker) = some header.length) :
    ∀ (parts : List Str), (∀ p ∈ parts, indexOf marker (p ++ marker) = some p.length) →
      split marker (header ++ (parts.map (fun p => marker ++ p)).flatten
          ++ (marker ++ "--".toList))
        = header :: (parts ++ ["--".toList]) := by
  have hne : marker ≠ [] := by
    intro h; rw [h] at hM; simp at hM
  have hsep : 0 < marker.length := by omega
  have key : ∀ (parts : List Str) (x : Str),
      indexOf marker (x ++ marker) = some x.length →
      (∀ p ∈ parts, indexOf marker (p ++ marker) = some p.length) →
      splitLoop marker ((x ++ (parts.map (fun p => marker ++ p)).flatten
          ++ (marker ++ "--".toList)).length + 1) []
        (x ++ (parts.map (fun p => marker ++ p)).flatten ++ (marker ++ "--".toList))
        = x :: (parts ++ ["--".toList]) := by
    intro parts
    induction parts with
    | nil =>
      intro x hx _
      have h1 := splitLoop_first marker hsep "--".toList x [] hx
      simp only [List.map_nil, List.flatten_nil, List.append_nil, ← List.append_assoc]
      rw [h1, splitLoop_no_occurrence marker hsep _ _
        (indexOf_none_of_short _ _ (by simpa using hM))]
      simp
    | cons p ps ih =>
      intro x hx hps
      have hp := hps p (by simp)
      have hrest := ih p hp (fun q hq => hps q (by simp [hq]))
      have h1 := splitLoop_first marker hsep
        (p ++ (ps.map (fun p => marker ++ p)).flatten ++ (marker ++ "--".toList)) x [] hx
      have heq : x ++ ((p :: ps).map (fun p => marker ++ p)).flatten ++ (marker ++ "--".toList)
          = x ++ marker ++ (p ++ (ps.map (fun p => marker ++ p)).flatten
              ++ (marker ++ "--".toList)) := by
        simp
      rw [heq, h1, hrest]
      simp
  intro parts hparts
  unfold split
  simp only [hne, if_false]
  exact key parts header hh hparts

theorem stringPartStep_attachment (upload : Uploader) (st : ParseState)
    (text filename : Str) (bytes : List Nat)
    (hwf : (MimePart.attachment text filename bytes).WellFormed) :
    stringPartStep upload st text =
      match upload bytes filename with
      | some r =>
        { st with attachmentUrls := st.attachmentUrls ++
            [⟨filename, r.downloadUrl, bytes.length, r.mimeType, none⟩] }
      | none =>
        { st with bodyParts := st.bodyParts ++ [⟨PartType.attachment, text, some filename⟩] } := by
  obtain ⟨hd, ⟨m, hm, hname⟩, ⟨start, hstart, hcontent⟩, _⟩ := hwf
  have hdisp : hasAttachmentDisposition text = true := by
    unfold hasAttachmentDisposition
    rw [hd]
    rfl
  unfold stringPartStep
  simp only [hdisp, if_true, hm, hstart, hcontent, hname]

theorem stringPartStep_body (upload : Uploader) (st : ParseState) (text : Str)
    (hwf : (MimePart.body text).WellFormed) :
    stringPartStep upload st text =
      { st with bodyParts := st.bodyParts ++ [⟨PartType.body, text, none⟩] } := by
  have hdisp : hasAttachmentDisposition text = false := hwf
  have hinc : includes "Content-Disposition: attachment".toList text = false := by
    unfold hasAttachmentDisposition at hdisp
    simp only [Bool.or_eq_false_iff] at hdisp
    exact hdisp.1
  unfold stringPartStep
  rw [hdisp, hinc]
  simp only [Bool.false_eq_true, if_false, Bool.not_false, if_true]

theorem foldl_stringPartStep (upload : Uploader)
    (hup : ∀ bytes filename, (upload bytes filename).isSome = true) :
    ∀ (parts : List MimePart) (st : ParseState), (∀ p ∈ parts, p.WellFormed) →
      (parts.map MimePart.text).foldl (stringPartStep upload) st =
        ⟨st.attachmentUrls ++ expectedRecords upload parts,
          st.bodyParts ++ (bodyTexts parts).map (fun text => ⟨PartType.body, text, none⟩)⟩
  | [], st, _ => by simp [expectedRecords, bodyTexts]
  | MimePart.attachment text filename bytes :: rest, st, hwf => by
    simp only [List.map_cons, List.foldl_cons, MimePart.text]
    rw [stringPartStep_attachment upload st text filename bytes (hwf _ (by simp))]
    have hsome := hup bytes filename
    cases hr : upload bytes filename with
    | none => rw [hr] at hsome; simp at hsome
    | some r =>
      simp only
      rw [foldl_stringPartStep upload hup rest _ (fun p hp => hwf p (by simp [hp]))]
      simp [expectedRecords, bodyTexts, hr]
  | MimePart.body text :: rest, st, hwf => by
    simp only [List.map_cons, List.foldl_cons, MimePart.text]
    rw [stringPartStep_body upload st text (hwf _ (by simp))]
    rw [foldl_stringPartStep upload hup rest _ (fun p hp => hwf p (by simp [hp]))]
    simp [expectedRecords, bodyTexts]

theorem rebuildParts_bodies (boundary : Str) (texts : List Str) :
    rebuildParts boundary (texts.map (fun text => ⟨PartType.body, text, none⟩)) =
      (texts.map (fun text => boundaryMarker boundary ++ text)).flatten := by
  have key : ∀ (texts : List Str) (acc : Str),
      (texts.map (fun text => (⟨PartType.body, text, none⟩ : BodyPart))).foldl
        (fun cleanBody part =>
          match part.type with
          | PartType.body => cleanBody ++ (boundaryMarker boundary ++ part.content)
          | PartType.attachment => cleanBody ++ (boundaryMarker boundary ++ part.content))
        acc
      = acc ++ (texts.map (fun text => boundaryMarker boundary ++ text)).flatten := by
    intro texts
    induction texts with
    | nil => intro acc; simp
    | cons t ts ih =>
      intro acc
      simp only [List.map_cons, List.foldl_cons, List.flatten_cons]
      rw [ih]
      simp
  unfold rebuildParts
  rw [key]
  simp

theorem expectedRecords_filenames (upload : Uploader)
    (hup : ∀ bytes filename, (upload bytes filename).isSome = true) :
    ∀ (parts : List MimePart),
      (expectedRecords upload parts).map (fun r => r.filename) = attachmentNames parts
  | [] => rfl
  | MimePart.attachment text filename bytes :: rest => by
    have hsome := hup bytes filename
    cases hr : upload bytes filename with
    | none => rw [hr] at hsome; simp at hsome
    | some r =>
      simp [expectedRecords, attachmentNames, hr, expectedRecords_filenames upload hup rest]
  | MimePart.body text :: rest => by
    simp [expectedRecords, attachmentNames, expectedRecords_filenames upload hup rest]

/-- C1 (amended). For every multipart message of at most ten parts, made of a header block,
attachment parts and body parts in any order, each introduced by `--b` and the whole closed
by `--b--`, where `b` is the boundary the message declares, no part and not the header
contains the marker, and every upload succeeds: `parseEmailFromString` returns one record
per attachment part, in order, with the part's filename and the length of its decoded
bytes, and a clean body made of the header block, a blank line, every body part unchanged
after a `--b`, in order, and the closing `--b--` when a body part is kept. -/
theorem parseEmailFromString_multipart (upload : Uploader) (header boundary : Str)
    (parts : List MimePart)
    (hcount : parts.length ≤ 10)
    (hdecl : matchBoundary (multipartMessage header boundary parts) = some boundary)
    (hheader : indexOf (boundaryMarker boundary) (header ++ boundaryMarker boundary)
      = some header.length)
    (hdelim : ∀ p ∈ parts, indexOf (boundaryMarker boundary) (p.text ++ boundaryMarker boundary)
      = some p.text.length)
    (hwf : ∀ p ∈ parts, p.WellFormed)
    (hup : ∀ bytes filename, (upload bytes filename).isSome = true) :
    parseEmailFromString upload (multipartMessage header boundary parts)
      = ⟨expectedRecords upload parts, expectedCleanBody header boundary parts⟩ ∧
    (parseEmailFromString upload (multipartMessage header boundary parts)).attachmentUrls.map
        (fun r => r.filename) = attachmentNames parts := by
  have hbne := matchBoundary_ne_nil _ _ hdecl
  have hM : 2 < (boundaryMarker boundary).length := by
    have : 0 < boundary.length := List.length_pos.2 hbne
    simp [boundaryMarker]
    omega
  have hsplit : split (boundaryMarker boundary) (multipartMessage header boundary parts)
      = header :: (parts.map MimePart.text ++ ["--".toList]) := by
    have := split_message (boundaryMarker boundary) header hM hheader (parts.map MimePart.text)
      (by
        intro p hp
        obtain ⟨q, hq, rfl⟩ := List.mem_map.1 hp
        exact hdelim q hq)
    simp only [List.map_map] at this
    exact this
  have hmain : parseEmailFromString upload (multipartMessage header boundary parts)
      = ⟨expectedRecords upload parts, expectedCleanBody header boundary parts⟩ := by
    unfold parseEmailFromString
    simp only [hdecl, hsplit]
    have hslice : sliceInner (header :: (parts.map MimePart.text ++ ["--".toList]))
        = parts.map MimePart.text := by
      simp [sliceInner]
    have htake : (parts.map MimePart.text).take 10 = parts.map MimePart.text :=
      List.take_of_length_le (by simpa using hcount)
    rw [hslice, htake, foldl_stringPartStep upload hup parts _ hwf]
    simp only [List.nil_append, List.headD_cons, rebuildParts_bodies, List.length_map]
    unfold expectedCleanBody
    cases hbt : bodyTexts parts with
    | nil => simp
    | cons t ts => simp
  refine ⟨hmain, ?_⟩
  rw [hmain]
  exact expectedRecords_filenames upload hup parts

theorem sampleAttachmentPart_wellFormed :
    (MimePart.attachment sampleAttachmentPart "a.txt".toList [104, 101, 108, 108, 111]).WellFormed :=
  ⟨by decide, ⟨"a.txt".toList, by decide, by decide⟩, ⟨50, by decide, by decide⟩, by decide⟩

set_option maxRecDepth 100000 in
/-- An instance: a message with one attachment part and one body part. -/
theorem parseEmailFromString_multipart_witness :
    parseEmailFromString okUpload (multipartMessage sampleHeader "X".toList
        [MimePart.attachment sampleAttachmentPart "a.txt".toList [104, 101, 108, 108, 111],
          MimePart.body sampleBodyPart])
      = ⟨expectedRecords okUpload
            [MimePart.attachment sampleAttachmentPart "a.txt".toList [104, 101, 108, 108, 111],
              MimePart.body sampleBodyPart],
          expectedCleanBody sampleHeader "X".toList
            [MimePart.attachment sampleAttachmentPart "a.txt".toList [104, 101, 108, 108, 111],
              MimePart.body sampleBodyPart]⟩ ∧
    (parseEmailFromString okUpload (multipartMessage sampleHeader "X".toList
        [MimePart.attachment sampleAttachmentPart "a.txt".toList [104, 101, 108, 108, 111],
          MimePart.body sampleBodyPart])).attachmentUrls.map (fun r => r.filename)
      = attachmentNames
          [MimePart.attachment sampleAttachmentPart "a.txt".toList [104, 101, 108, 108, 111],
            MimePart.body sampleBodyPart] :=
  parseEmailFromString_multipart okUpload sampleHeader "X".toList
    [MimePart.attachment sampleAttachmentPart "a.txt".toList [104, 101, 108, 108, 111],
      MimePart.body sampleBodyPart]
    (by decide) (by decide) (by decide) (by decide)
    (by
      intro p hp
      simp only [List.mem_cons, List.mem_singleton, List.not_mem_nil, or_false] at hp
      rcases hp with rfl | rfl
      · exact sampleAttachmentPart_wellFormed
      · show hasAttachmentDisposition sampleBodyPart = false
        decide)
    (fun _ _ => rfl)

set_option maxRecDepth 100000 in
/-- C1 (counterexample). A message of eleven body parts that meets every other requirement
of the claim: the clean body holds the first ten parts only, the text of the eleventh does
not occur in it. -/
theorem parseEmailFromString_eleven_parts :
    elevenBodyParts.length = 11 ∧
    matchBoundary (multipartMessage sampleHeader "X".toList elevenBodyParts) = some "X".toList ∧
    indexOf (boundaryMarker "X".toList) (sampleHeader ++ boundaryMarker "X".toList)
      = some sampleHeader.length ∧
    (∀ p ∈ elevenBodyParts,
      indexOf (boundaryMarker "X".toList) (p.text ++ boundaryMarker "X".toList)
        = some p.text.length ∧ hasAttachmentDisposition p.text = false) ∧
    bodyTexts elevenBodyParts = elevenBodyParts.map MimePart.text ∧
    parseEmailFromString okUpload (multipartMessage sampleHeader "X".toList elevenBodyParts)
      ≠ ⟨expectedRecords okUpload elevenBodyParts,
          expectedCleanBody sampleHeader "X".toList elevenBodyParts⟩ ∧
    includes "\n\nk\n".toList
      (parseEmailFromString okUpload
        (multipartMessage sampleHeader "X".toList elevenBodyParts)).cleanBody = false := by
  decide

theorem terminalIsLast_of_check (marker t : Str)
    (h : ∀ k, k < t.length + 1 → startsWith marker (t.drop k) = true →
      startsWith "--".toList (t.drop (k + marker.length)) = true →
      includes marker (t.drop (k + marker.length)) = false) :
    TerminalIsLast marker t := by
  intro p q ht hq
  have hd1 : t.drop p.length = marker ++ q := by
    rw [ht, List.append_assoc, List.drop_left]
  have hd2 : t.drop (p.length + marker.length) = q := by
    rw [← List.drop_drop, hd1, List.drop_left]
  have := h p.length (by rw [ht]; simp; omega)
    (by rw [hd1]; exact startsWith_append_self _ _) (by rw [hd2]; exact hq)
  rw [hd2] at this
  exact this

set_option maxRecDepth 100000 in
/-- An instance: both boundary markers and the terminal `--` are cut by chunk borders. -/
theorem submittedParts_chunking_witness :
    submittedParts "X".toList ["\n\na\n-".toList, "-X\n\nb\n--".toList, "X-".toList, "-\n".toList] []
      = submittedParts "X".toList ["\n\na\n--X\n\nb\n--X--\n".toList] [] :=
  submittedParts_chunking "X".toList "\n\na\n--X\n\nb\n--X--\n".toList
    ["\n\na\n-".toList, "-X\n\nb\n--".toList, "X-".toList, "-\n".toList] (by decide)
    (fun p q hpq hq _ => terminalIsLast_of_check _ _ (by decide) p q hpq hq)

/-! ## A quoted boundary declaration in the header is the boundary the parser reads -/

theorem takeWhile_until_quote (b rest : Str) (hq : ∀ c ∈ b, c ≠ dquote) :
    (b ++ dquote :: rest).takeWhile (fun x => x != dquote) = b := by
  induction b with
  | nil => simp [List.takeWhile]
  | cons c cs ih =>
    have hc : (c != dquote) = true := by simpa using hq c (by simp)
    have hstep : List.takeWhile (fun x => x != dquote) (c :: (cs ++ dquote :: rest))
        = c :: List.takeWhile (fun x => x != dquote) (cs ++ dquote :: rest) :=
      List.takeWhile_cons_of_pos hc
    rw [List.cons_append, hstep, ih (fun x hx => hq x (by simp [hx]))]

theorem matchQuoted_first (key b rest : Str) (hb : b ≠ []) (hq : ∀ c ∈ b, c ≠ dquote) :
    ∀ (h1 : Str), indexOf key (h1 ++ key) = some h1.length →
      matchQuoted key (h1 ++ key ++ dquote :: (b ++ dquote :: rest)) = some b
  | [], _ => by
    cases hs : [] ++ key ++ dquote :: (b ++ dquote :: rest) with
    | nil =>
      have := congrArg List.length hs
      simp at this
    | cons c cs =>
      rw [matchQuoted_cons, ← hs]
      have h1 : startsWith (key ++ [dquote]) ([] ++ key ++ dquote :: (b ++ dquote :: rest))
          = true := (startsWith_iff _ _).2 ⟨b ++ dquote :: rest, by simp⟩
      have h2 : ([] ++ key ++ dquote :: (b ++ dquote :: rest)).drop (key.length + 1)
          = b ++ dquote :: rest := by
        have : [] ++ key ++ dquote :: (b ++ dquote :: rest)
            = (key ++ [dquote]) ++ (b ++ dquote :: rest) := by simp
        rw [this]
        have hl : key.length + 1 = (key ++ [dquote]).length := by simp
        rw [hl, List.drop_left]
      rw [h1, h2, takeWhile_until_quote b rest hq]
      simp [hb]
  | x :: h1, hkey => by
    have hx : indexOf key (h1 ++ key) = some h1.length := by
      rw [List.cons_append, indexOf_cons] at hkey
      cases hs : startsWith key (x :: (h1 ++ key)) with
      | true => simp [hs] at hkey
      | false =>
        simp only [hs, Bool.false_eq_true, if_false] at hkey
        cases hi : indexOf key (h1 ++ key) with
        | none => simp [hi] at hkey
        | some i =>
          simp only [hi, Option.some.injEq, List.length_cons] at hkey
          have : i = h1.length := by omega
          rw [this]
    have hnot : startsWith (key ++ [dquote])
        (x :: h1 ++ key ++ dquote :: (b ++ dquote :: rest)) = false := by
      cases hs : startsWith (key ++ [dquote])
          (x :: h1 ++ key ++ dquote :: (b ++ dquote :: rest)) with
      | false => rfl
      | true =>
        exfalso
        obtain ⟨t, ht⟩ := (startsWith_iff _ _).1 hs
        have hk : startsWith key (x :: h1 ++ key ++ dquote :: (b ++ dquote :: rest)) = true :=
          (startsWith_iff _ _).2 ⟨dquote :: t, by rw [ht]; simp⟩
        rw [startsWith_append_eq _ _ _ (by simp; omega)] at hk
        obtain ⟨_, _, h3⟩ := (indexOf_eq_some_iff _ _ _).1 hkey
        have := h3 0 (by simp)
        simp only [List.drop_zero] at this
        rw [this] at hk
        exact absurd hk (by simp)
    have ih := matchQuoted_first key b rest hb hq h1 hx
    simp only [List.cons_append] at hnot ⊢
    rw [matchQuoted_cons, hnot]
    simpa using ih

/-- A header whose first `boundary=` is followed by `"b"` makes `b` the boundary read from
any message that starts with this header. -/
theorem matchBoundary_quoted_header (h1 b h2 rest : Str) (hb : b ≠ [])
    (hq : ∀ c ∈ b, c ≠ dquote)
    (hfirst : indexOf "boundary=".toList (h1 ++ "boundary=".toList) = some h1.length) :
    matchBoundary (h1 ++ "boundary=".toList ++ dquote :: (b ++ dquote :: h2) ++ rest)
      = some b := by
  have := matchQuoted_first "boundary=".toList b (h2 ++ rest) hb hq h1 hfirst
  unfold matchBoundary
  have heq : h1 ++ "boundary=".toList ++ dquote :: (b ++ dquote :: h2) ++ rest
      = h1 ++ "boundary=".toList ++ dquote :: (b ++ dquote :: (h2 ++ rest)) := by simp
  rw [heq, this]

/-! ## The string parser: decode failures, and the specification's example -/

set_option maxRecDepth 100000 in
/-- C11 (defect). A message whose attachment part holds content that is not base64: the
decoder returns no byte, yet `parseEmailFromString` hands the empty buffer to the uploader
and adds a record of size 0 for the part, and the part is not kept in the clean body. The
streaming path (`processAttachment`) tests for the empty buffer and retains the part. -/
theorem parseEmailFromString_uploads_undecodable_attachment (toLowerCase : Str → Str) :
    base64ToUint8Array (contentAfter brokenAttachmentPart 50) = [] ∧
    parseEmailFromString okUpload
        (sampleHeader ++ "--X".toList ++ brokenAttachmentPart ++ "--X".toList ++ sampleBodyPart
          ++ "--X--".toList)
      = ⟨[⟨"a.txt".toList, "https://files.example/a.txt".toList, 0,
            "application/octet-stream".toList, none⟩],
          sampleHeader ++ "\n\n".toList ++ "--X".toList ++ sampleBodyPart ++ "--X--".toList⟩ ∧
    includes brokenAttachmentPart
      (parseEmailFromString okUpload
        (sampleHeader ++ "--X".toList ++ brokenAttachmentPart ++ "--X".toList ++ sampleBodyPart
          ++ "--X--".toList)).cleanBody = false ∧
    processAttachment toLowerCase okUpload brokenAttachmentPart "a.txt".toList ⟨[], []⟩
      = ⟨[], [⟨PartType.attachment, brokenAttachmentPart, some "a.txt".toList⟩]⟩ :=
  ⟨by decide, by decide, by decide, by rfl⟩

set_option maxRecDepth 100000 in
/-- C12 (defect). A body stream of two chunks, the first closed by the terminal marker
`--X--`: the `break` on the terminal marker leaves the inner loop only, the next read scans
the buffer again, and two more parts are submitted after the terminal marker (the rest of
the terminal line, and the part that follows). Through `streamParseEmail` the text after
the terminal marker reaches the clean body. -/
theorem processEmailBodyStream_continues_after_terminal (toLowerCase : Str → Str) :
    submittedParts "X".toList ["--X\n\nhello\n--X--\n".toList] [] = ["\n\nhello\n".toList] ∧
    submittedParts "X".toList
        ["--X\n\nhello\n--X--\n".toList, "--X\n\nafter\n--X--\n".toList] []
      = ["\n\nhello\n".toList, "--\n".toList, "\n\nafter\n".toList] ∧
    (streamParseEmail toLowerCase okUpload (RawContent.stream
        [asciiChunk sampleHeader, asciiChunk "--X\n\nhello\n--X--\n".toList,
          asciiChunk "--X\n\nafter\n--X--\n".toList])).cleanBody
      = sampleHeader ++ "--X\n".toList ++ sampleHeader ++ "\n--X\n".toList
          ++ "\n\nhello\n".toList ++ "\n--X\n".toList ++ "--\n".toList ++ "\n--X\n".toList
          ++ "\n\nafter\n".toList ++ "\n--X--".toList :=
  ⟨by decide, by decide, by rfl⟩

set_option maxRecDepth 100000 in
/-- C13. On the specification's example message, with the upload of the bytes of `hello`
under the name `a.txt` succeeding, `parseEmailFromString` returns exactly one record, for
`a.txt`, of size 5, built from what the uploader returned for those bytes; the clean body is
the header, the `hello` part between `--X` and `--X--`, and holds nothing of the attachment
part. -/
theorem parseEmailFromString_example (upload : Uploader) (r : UploadResult)
    (hup : upload [104, 101, 108, 108, 111] "a.txt".toList = some r) :
    parseEmailFromString upload exampleMessage
      = ⟨[⟨"a.txt".toList, r.downloadUrl, 5, r.mimeType, none⟩], exampleCleanBody⟩ ∧
    includes "Content-Disposition".toList exampleCleanBody = false ∧
    includes "aGVsbG8=".toList exampleCleanBody = false ∧
    split "--X".toList exampleCleanBody
      = ["Content-Type: multipart/mixed; boundary=\"X\"\r\n\r\n\n\n".toList, exampleBodyPart,
          "--".toList] := by
  have hb : matchBoundary exampleMessage = some "X".toList := by decide
  have hs : split (boundaryMarker "X".toList) exampleMessage
      = ["Content-Type: multipart/mixed; boundary=\"X\"\r\n\r\n".toList, exampleBodyPart,
          exampleAttachmentPart, "--".toList] := by decide
  have hbody : (MimePart.body exampleBodyPart).WellFormed := by
    show hasAttachmentDisposition exampleBodyPart = false
    decide
  have hatt : (MimePart.attachment exampleAttachmentPart "a.txt".toList
      [104, 101, 108, 108, 111]).WellFormed :=
    ⟨by decide, ⟨"a.txt".toList, by decide, by decide⟩, ⟨51, by decide, by decide⟩, by decide⟩
  refine ⟨?_, by decide, by decide, by decide⟩
  have hslice : (sliceInner ["Content-Type: multipart/mixed; boundary=\"X\"\r\n\r\n".toList,
      exampleBodyPart, exampleAttachmentPart, "--".toList]).take 10
      = [exampleBodyPart, exampleAttachmentPart] := by decide
  unfold parseEmailFromString
  simp only [hb, hs, hslice, List.foldl_cons, List.foldl_nil]
  rw [stringPartStep_body upload _ _ hbody,
    stringPartStep_attachment upload _ _ _ _ hatt, hup]
  simp only [ParseResult.mk.injEq, List.nil_append]
  exact ⟨rfl, by decide⟩

set_option maxRecDepth 100000 in
/-- The example with an uploader that succeeds. -/
theorem parseEmailFromString_example_witness :
    parseEmailFromString okUpload exampleMessage
      = ⟨[⟨"a.txt".toList, "https://files.example/a.txt".toList, 5,
            "application/octet-stream".toList, none⟩], exampleCleanBody⟩ ∧
    includes "Content-Disposition".toList exampleCleanBody = false ∧
    includes "aGVsbG8=".toList exampleCleanBody = false ∧
    split "--X".toList exampleCleanBody
      = ["Content-Type: multipart/mixed; boundary=\"X\"\r\n\r\n\n\n".toList, exampleBodyPart,
          "--".toList] :=
  parseEmailFromString_example okUpload
    ⟨"https://files.example/a.txt".toList, "application/octet-stream".toList⟩ (by decide)

/-! ## The string parser on arbitrary input: header, part limit, attachments only -/

theorem parseEmailFromString_eq_state (upload : Uploader) (s boundary : Str)
    (h : matchBoundary s = some boundary) :
    parseEmailFromString upload s =
      ⟨(stringParseState upload boundary s).attachmentUrls,
        if (stringParseState upload boundary s).bodyParts.length > 0 then
          (split (boundaryMarker boundary) s).headD [] ++ "\n\n".toList
            ++ rebuildParts boundary (stringParseState upload boundary s).bodyParts
            ++ (boundaryMarker boundary ++ "--".toList)
        else
          (split (boundaryMarker boundary) s).headD [] ++ "\n\n".toList
            ++ rebuildParts boundary (stringParseState upload boundary s).bodyParts⟩ := by
  unfold parseEmailFromString stringParseState
  simp only [h]

theorem stringPartStep_count (upload : Uploader) (st : ParseState) (part : Str) :
    (stringPartStep upload st part).attachmentUrls.length
        + (stringPartStep upload st part).bodyParts.length
      ≤ st.attachmentUrls.length + st.bodyParts.length + 1 := by
  unfold stringPartStep
  cases hasAttachmentDisposition part with
  | true =>
    simp only [if_true]
    cases matchFilename part with
    | none => simp only; omega
    | some m =>
      simp only
      cases contentStart part with
      | none => simp only; omega
      | some start =>
        simp only
        cases upload (base64ToUint8Array (contentAfter part start)) (stripQuotes m) with
        | none => simp only [List.length_append, List.length_singleton]; omega
        | some r => simp only [List.length_append, List.length_singleton]; omega
  | false =>
    simp only [Bool.false_eq_true, if_false]
    split
    · simp only [List.length_append, List.length_singleton]; omega
    · omega

theorem foldl_stringPartStep_count (upload : Uploader) :
    ∀ (parts : List Str) (st : ParseState),
      (parts.foldl (stringPartStep upload) st).attachmentUrls.length
          + (parts.foldl (stringPartStep upload) st).bodyParts.length
        ≤ st.attachmentUrls.length + st.bodyParts.length + parts.length
  | [], st => by simp
  | p :: ps, st => by
    have h1 := foldl_stringPartStep_count upload ps (stringPartStep upload st p)
    have h2 := stringPartStep_count upload st p
    simp only [List.foldl_cons, List.length_cons]
    omega

theorem stringParseState_count (upload : Uploader) (boundary s : Str) :
    (stringParseState upload boundary s).attachmentUrls.length
        + (stringParseState upload boundary s).bodyParts.length ≤ 10 := by
  have h := foldl_stringPartStep_count upload
    ((sliceInner (split (boundaryMarker boundary) s)).take 10) ⟨[], []⟩
  have hl : ((sliceInner (split (boundaryMarker boundary) s)).take 10).length ≤ 10 := by
    rw [List.length_take]; omega
  unfold stringParseState
  simp only [List.length_nil] at h
  omega

theorem splitLoop_head (sep : Str) (hsep : 0 < sep.length) :
    ∀ (s acc : Str),
      (splitLoop sep (s.length + 1) acc s).headD [] =
        acc.reverse ++ (match indexOf sep s with
          | some i => s.take i
          | none => s)
  | [], acc => by
    have : indexOf sep [] = none := indexOf_none_of_short _ _ (by simpa using hsep)
    simp [splitLoop, this]
  | c :: cs, acc => by
    rw [splitLoop_cons sep hsep, indexOf_cons]
    cases hs : startsWith sep (c :: cs) with
    | true => simp
    | false =>
      simp only [Bool.false_eq_true, if_false]
      rw [splitLoop_head sep hsep cs (c :: acc)]
      cases indexOf sep cs with
      | none => simp
      | some i => simp

theorem split_head (sep s : Str) (hsep : 0 < sep.length) :
    (split sep s).headD [] =
      match indexOf sep s with
      | some i => s.take i
      | none => s := by
  have hne : sep ≠ [] := by
    intro h; rw [h] at hsep; simp at hsep
  unfold split
  simp only [hne, if_false]
  rw [splitLoop_head sep hsep s []]
  simp

/-- C15. For every input string in which a boundary is detected, the clean body returned by
`parseEmailFromString` begins with the text that precedes the first `--boundary` marker of
the input, unchanged, followed by a blank line, whatever the parts are and whatever becomes
of them; when the input holds no marker at all, that text is the whole input. -/
theorem parseEmailFromString_keeps_header (upload : Uploader) (s boundary : Str)
    (hdecl : matchBoundary s = some boundary) :
    (∀ i, indexOf (boundaryMarker boundary) s = some i →
      ∃ rest, (parseEmailFromString upload s).cleanBody = s.take i ++ "\n\n".toList ++ rest) ∧
    (indexOf (boundaryMarker boundary) s = none →
      parseEmailFromString upload s = ⟨[], s ++ "\n\n".toList⟩) := by
  have hM := boundaryMarker_length_pos boundary
  have hhead := split_head (boundaryMarker boundary) s hM
  constructor
  · intro i hi
    rw [hi] at hhead
    rw [parseEmailFromString_eq_state upload s boundary hdecl]
    simp only [hhead]
    split
    · exact ⟨_, by rw [List.append_assoc (s.take i ++ "\n\n".toList)]⟩
    · exact ⟨_, rfl⟩
  · intro hnone
    have hsplit : split (boundaryMarker boundary) s = [s] := by
      have hne : boundaryMarker boundary ≠ [] := by
        intro h; rw [h] at hM; simp at hM
      unfold split
      simp only [hne, if_false]
      rw [splitLoop_no_occurrence _ hM s [] hnone]
      simp
    have hst : stringParseState upload boundary s = ⟨[], []⟩ := by
      unfold stringParseState
      rw [hsplit]
      rfl
    rw [parseEmailFromString_eq_state upload s boundary hdecl, hst, hsplit]
    simp [rebuildParts]

set_option maxRecDepth 100000 in
/-- An instance: a message whose attachment part is undecodable and whose second part has
no filename; the clean body still begins with the header block. -/
theorem parseEmailFromString_keeps_header_witness :
    (∀ i, indexOf (boundaryMarker "X".toList)
        (sampleHeader ++ "--X".toList ++ brokenAttachmentPart ++ "--X".toList
          ++ namelessAttachmentPart ++ "--X--".toList) = some i →
      ∃ rest, (parseEmailFromString okUpload
        (sampleHeader ++ "--X".toList ++ brokenAttachmentPart ++ "--X".toList
          ++ namelessAttachmentPart ++ "--X--".toList)).cleanBody
        = (sampleHeader ++ "--X".toList ++ brokenAttachmentPart ++ "--X".toList
          ++ namelessAttachmentPart ++ "--X--".toList).take i ++ "\n\n".toList ++ rest) ∧
    (indexOf (boundaryMarker "X".toList)
        (sampleHeader ++ "--X".toList ++ brokenAttachmentPart ++ "--X".toList
          ++ namelessAttachmentPart ++ "--X--".toList) = none →
      parseEmailFromString okUpload
        (sampleHeader ++ "--X".toList ++ brokenAttachmentPart ++ "--X".toList
          ++ namelessAttachmentPart ++ "--X--".toList)
        = ⟨[], sampleHeader ++ "--X".toList ++ brokenAttachmentPart ++ "--X".toList
          ++ namelessAttachmentPart ++ "--X--".toList ++ "\n\n".toList⟩) :=
  parseEmailFromString_keeps_header okUpload _ "X".toList (by decide)

theorem split_assembled (header boundary trailer : Str)
    (hh : indexOf (boundaryMarker boundary) (header ++ boundaryMarker boundary)
      = some header.length)
    (ht : indexOf (boundaryMarker boundary) trailer = none) :
    ∀ (parts : List Str),
      (∀ p ∈ parts, indexOf (boundaryMarker boundary) (p ++ boundaryMarker boundary)
        = some p.length) →
      split (boundaryMarker boundary) (assembleMessage header boundary parts trailer)
        = header :: (parts ++ [trailer]) := by
  have hsep := boundaryMarker_length_pos boundary
  have hne : boundaryMarker boundary ≠ [] := by
    intro h; rw [h] at hsep; simp at hsep
  have key : ∀ (parts : List Str) (x : Str),
      indexOf (boundaryMarker boundary) (x ++ boundaryMarker boundary) = some x.length →
      (∀ p ∈ parts, indexOf (boundaryMarker boundary) (p ++ boundaryMarker boundary)
        = some p.length) →
      splitLoop (boundaryMarker boundary)
          ((assembleMessage x boundary parts trailer).length + 1) []
          (assembleMessage x boundary parts trailer)
        = x :: (parts ++ [trailer]) := by
    intro parts
    induction parts with
    | nil =>
      intro x hx _
      have h1 := splitLoop_first (boundaryMarker boundary) hsep trailer x [] hx
      simp only [assembleMessage, List.map_nil, List.flatten_nil, List.append_nil,
        ← List.append_assoc]
      rw [h1, splitLoop_no_occurrence _ hsep _ _ ht]
      simp
    | cons p ps ih =>
      intro x hx hps
      have hp := hps p (by simp)
      have hrest := ih p hp (fun q hq => hps q (by simp [hq]))
      have h1 := splitLoop_first (boundaryMarker boundary) hsep
        (assembleMessage p boundary ps trailer) x [] hx
      have heq : assembleMessage x boundary (p :: ps) trailer
          = x ++ boundaryMarker boundary ++ assembleMessage p boundary ps trailer := by
        simp [assembleMessage]
      rw [heq, h1, hrest]
      simp
  intro parts hparts
  unfold split
  simp only [hne, if_false]
  exact key parts header hh hparts

theorem stringParseState_assembled (upload : Uploader) (header boundary trailer : Str)
    (parts : List Str)
    (hh : indexOf (boundaryMarker boundary) (header ++ boundaryMarker boundary)
      = some header.length)
    (hd : ∀ p ∈ parts, indexOf (boundaryMarker boundary) (p ++ boundaryMarker boundary)
      = some p.length)
    (ht : indexOf (boundaryMarker boundary) trailer = none) :
    stringParseState upload boundary (assembleMessage header boundary parts trailer)
      = (parts.take 10).foldl (stringPartStep upload) ⟨[], []⟩ := by
  unfold stringParseState
  rw [split_assembled header boundary trailer hh ht parts hd]
  have : sliceInner (header :: (parts ++ [trailer])) = parts := by simp [sliceInner]
  rw [this]

theorem multipartMessage_eq_assemble (header boundary : Str) (parts : List MimePart) :
    multipartMessage header boundary parts
      = assembleMessage header boundary (parts.map MimePart.text) "--".toList := by
  simp [multipartMessage, assembleMessage, List.map_map, Function.comp_def]

theorem indexOf_terminal_trailer (boundary : Str) :
    indexOf (boundaryMarker boundary) "--".toList = none ∨ boundary = [] := by
  cases boundary with
  | nil => exact Or.inr rfl
  | cons c cs => exact Or.inl (indexOf_none_of_short _ _ (by simp [boundaryMarker]))

/-- The marker does not occur in the header block followed by a blank line, when the
boundary holds no line feed. -/
theorem indexOf_header_blank_line (marker header : Str) (hM : 0 < marker.length)
    (hh : indexOf marker (header ++ marker) = some header.length)
    (hnl : '\n' ∉ marker) :
    indexOf marker (header ++ "\n\n".toList) = none := by
  cases hj : indexOf marker (header ++ "\n\n".toList) with
  | none => rfl
  | some j =>
    exfalso
    have hb := indexOf_some_bound _ _ _ hj
    obtain ⟨h1, h2, _⟩ := (indexOf_eq_some_iff _ _ _).1 hj
    obtain ⟨_, _, hmin⟩ := (indexOf_eq_some_iff _ _ _).1 hh
    simp only [List.length_append, String.toList, String.length] at hb
    have hnn : ("\n\n".toList).length = 2 := rfl
    by_cases hc : j + marker.length ≤ header.length
    · have hjl : j ≤ header.length := by omega
      rw [List.drop_append_of_le_length hjl,
        startsWith_append_eq _ _ _ (by simp only [List.length_drop]; omega)] at h1
      have := hmin j (by omega)
      rw [List.drop_append_of_le_length hjl, startsWith_append_of _ _ _ h1] at this
      exact absurd this (by simp)
    · obtain ⟨t, ht⟩ := (startsWith_iff _ _).1 h1
      have hk : marker.length - 1 < marker.length := by omega
      have e1 : (header ++ "\n\n".toList)[j + (marker.length - 1)]?
          = marker[marker.length - 1]? := by
        rw [← List.getElem?_drop, ht, List.getElem?_append_left hk]
      have hidx : header.length ≤ j + (marker.length - 1) := by omega
      have hlen2 : (header ++ "\n\n".toList).length = header.length + 2 := by
        rw [List.length_append, hnn]
      have hb2 : j + marker.length ≤ header.length + 2 := by
        have := indexOf_some_bound _ _ _ hj
        rw [hlen2] at this
        exact this
      have e2 : (header ++ "\n\n".toList)[j + (marker.length - 1)]? = some '\n' := by
        rw [List.getElem?_append_right hidx]
        have : j + (marker.length - 1) - header.length = 0 ∨
            j + (marker.length - 1) - header.length = 1 := by omega
        rcases this with h0 | h0 <;> rw [h0] <;> rfl
      rw [e2] at e1
      exact hnl (List.getElem?_mem e1.symm)

theorem bodyTexts_attachments_only : ∀ (parts : List MimePart),
    (∀ p ∈ parts, ∃ text filename bytes, p = MimePart.attachment text filename bytes) →
    bodyTexts parts = []
  | [], _ => rfl
  | MimePart.attachment _ _ _ :: rest, h => by
    simp only [bodyTexts]
    exact bodyTexts_attachments_only rest (fun p hp => h p (by simp [hp]))
  | MimePart.body text :: _, h => by
    obtain ⟨_, _, _, hp⟩ := h (MimePart.body text) (by simp)
    exact absurd hp (by simp)

/-- C14. For every multipart message all of whose parts are attachment parts that are
extracted (each with a filename and decodable content, every upload succeeding),
`parseEmailFromString` retains no part and returns as clean body the header block followed
by a blank line and nothing else; when the boundary holds no line feed, the marker
`--boundary`, and with it the terminal `--boundary--`, does not occur in the clean body. -/
theorem parseEmailFromString_attachments_only (upload : Uploader) (header boundary : Str)
    (parts : List MimePart)
    (hdecl : matchBoundary (multipartMessage header boundary parts) = some boundary)
    (hheader : indexOf (boundaryMarker boundary) (header ++ boundaryMarker boundary)
      = some header.length)
    (hdelim : ∀ p ∈ parts, indexOf (boundaryMarker boundary) (p.text ++ boundaryMarker boundary)
      = some p.text.length)
    (hall : ∀ p ∈ parts, ∃ text filename bytes, p = MimePart.attachment text filename bytes)
    (hwf : ∀ p ∈ parts, p.WellFormed)
    (hup : ∀ bytes filename, (upload bytes filename).isSome = true) :
    retainedParts upload (multipartMessage header boundary parts) = [] ∧
    (parseEmailFromString upload (multipartMessage header boundary parts)).cleanBody
      = header ++ "\n\n".toList ∧
    ('\n' ∉ boundary →
      includes (boundaryMarker boundary)
        (parseEmailFromString upload (multipartMessage header boundary parts)).cleanBody = false ∧
      includes (boundaryMarker boundary ++ "--".toList)
        (parseEmailFromString upload (multipartMessage header boundary parts)).cleanBody
        = false) := by
  have hbne := matchBoundary_ne_nil _ _ hdecl
  have htrail : indexOf (boundaryMarker boundary) "--".toList = none := by
    rcases indexOf_terminal_trailer boundary with h | h
    · exact h
    · exact absurd h hbne
  have hM := boundaryMarker_length_pos boundary
  have hasm := multipartMessage_eq_assemble header boundary parts
  have hd2 : ∀ p ∈ parts.map MimePart.text,
      indexOf (boundaryMarker boundary) (p ++ boundaryMarker boundary) = some p.length := by
    intro p hp
    obtain ⟨q, hq, rfl⟩ := List.mem_map.1 hp
    exact hdelim q hq
  have hstate : stringParseState upload boundary (multipartMessage header boundary parts)
      = ⟨expectedRecords upload (parts.take 10), []⟩ := by
    rw [hasm, stringParseState_assembled upload header boundary _ _ hheader hd2 htrail,
      ← List.map_take,
      foldl_stringPartStep upload hup (parts.take 10) _
        (fun p hp => hwf p (List.mem_of_mem_take hp)),
      bodyTexts_attachments_only (parts.take 10)
        (fun p hp => hall p (List.mem_of_mem_take hp))]
    simp
  have hhead : (split (boundaryMarker boundary) (multipartMessage header boundary parts)).headD []
      = header := by
    rw [hasm, split_assembled header boundary _ hheader htrail _ hd2]
    rfl
  have hclean : (parseEmailFromString upload (multipartMessage header boundary parts)).cleanBody
      = header ++ "\n\n".toList := by
    rw [parseEmailFromString_eq_state upload _ boundary hdecl, hstate, hhead]
    simp [rebuildParts]
  refine ⟨?_, hclean, ?_⟩
  · unfold retainedParts
    rw [hdecl]
    simp only [hstate]
  · intro hnl
    have hnlM : '\n' ∉ boundaryMarker boundary := by
      intro hm
      rcases List.mem_append.1 hm with h | h
      · exact absurd h (by decide)
      · exact hnl h
    have hnone := indexOf_header_blank_line _ header hM hheader hnlM
    rw [hclean]
    refine ⟨(includes_eq_false_iff _ _).2 hnone, (includes_eq_false_iff _ _).2 ?_⟩
    cases hi : indexOf (boundaryMarker boundary ++ "--".toList) (header ++ "\n\n".toList) with
    | none => rfl
    | some i =>
      exfalso
      obtain ⟨h1, h2, _⟩ := (indexOf_eq_some_iff _ _ _).1 hi
      obtain ⟨t, ht⟩ := (startsWith_iff _ _).1 h1
      have := (indexOf_eq_none_iff _ _).1 hnone i h2
      rw [ht, List.append_assoc, startsWith_append_self] at this
      exact absurd this (by simp)

set_option maxRecDepth 100000 in
/-- An instance: a message of two attachment parts. -/
theorem parseEmailFromString_attachments_only_witness :
    retainedParts okUpload (multipartMessage sampleHeader "X".toList
        [MimePart.attachment sampleAttachmentPart "a.txt".toList [104, 101, 108, 108, 111],
          MimePart.attachment sampleAttachmentPart "a.txt".toList [104, 101, 108, 108, 111]])
      = [] ∧
    (parseEmailFromString okUpload (multipartMessage sampleHeader "X".toList
        [MimePart.attachment sampleAttachmentPart "a.txt".toList [104, 101, 108, 108, 111],
          MimePart.attachment sampleAttachmentPart "a.txt".toList
            [104, 101, 108, 108, 111]])).cleanBody
      = sampleHeader ++ "\n\n".toList ∧
    ('\n' ∉ "X".toList →
      includes (boundaryMarker "X".toList)
        (parseEmailFromString okUpload (multipartMessage sampleHeader "X".toList
          [MimePart.attachment sampleAttachmentPart "a.txt".toList [104, 101, 108, 108, 111],
            MimePart.attachment sampleAttachmentPart "a.txt".toList
              [104, 101, 108, 108, 111]])).cleanBody = false ∧
      includes (boundaryMarker "X".toList ++ "--".toList)
        (parseEmailFromString okUpload (multipartMessage sampleHeader "X".toList
          [MimePart.attachment sampleAttachmentPart "a.txt".toList [104, 101, 108, 108, 111],
            MimePart.attachment sampleAttachmentPart "a.txt".toList
              [104, 101, 108, 108, 111]])).cleanBody = false) :=
  parseEmailFromString_attachments_only okUpload sampleHeader "X".toList
    [MimePart.attachment sampleAttachmentPart "a.txt".toList [104, 101, 108, 108, 111],
      MimePart.attachment sampleAttachmentPart "a.txt".toList [104, 101, 108, 108, 111]]
    (by decide) (by decide) (by decide)
    (by
      intro p hp
      simp only [List.mem_cons, List.mem_singleton, List.not_mem_nil, or_false, or_self] at hp
      exact ⟨_, _, _, hp⟩)
    (by
      intro p hp
      simp only [List.mem_cons, List.mem_singleton, List.not_mem_nil, or_false, or_self] at hp
      rw [hp]
      exact sampleAttachmentPart_wellFormed)
    (fun _ _ => rfl)

/-- C20 (amended). `parseEmailFromString` handles at most ten parts. For every input, the
number of attachment records returned plus the number of parts written into the clean body
is at most 10. For every input made of a text before the first marker, parts that each
follow a marker and a trailer after the last marker, whose boundary is read the same once
the parts after the tenth are removed, the result is the same as for the input with those
parts removed. -/
theorem parseEmailFromString_first_ten (upload : Uploader) (header boundary trailer : Str)
    (parts : List Str)
    (hdecl : matchBoundary (assembleMessage header boundary parts trailer) = some boundary)
    (hdecl10 : matchBoundary (assembleMessage header boundary (parts.take 10) trailer)
      = some boundary)
    (hheader : indexOf (boundaryMarker boundary) (header ++ boundaryMarker boundary)
      = some header.length)
    (hdelim : ∀ p ∈ parts, indexOf (boundaryMarker boundary) (p ++ boundaryMarker boundary)
      = some p.length)
    (htrailer : includes (boundaryMarker boundary) trailer = false) :
    (∀ s, (parseEmailFromString upload s).attachmentUrls.length
        + (retainedParts upload s).length ≤ 10) ∧
    (∀ s b, matchBoundary s = some b →
      (parseEmailFromString upload s).cleanBody
        = (split (boundaryMarker b) s).headD [] ++ "\n\n".toList
            ++ rebuildParts b (retainedParts upload s)
            ++ (if (retainedParts upload s).length > 0 then boundaryMarker b ++ "--".toList
                else [])) ∧
    parseEmailFromString upload (assembleMessage header boundary parts trailer)
      = parseEmailFromString upload (assembleMessage header boundary (parts.take 10) trailer) := by
  have ht := (includes_eq_false_iff _ _).1 htrailer
  refine ⟨?_, ?_, ?_⟩
  · intro s
    cases hb : matchBoundary s with
    | none =>
      unfold parseEmailFromString retainedParts
      simp [hb]
    | some b =>
      have hc := stringParseState_count upload b s
      rw [parseEmailFromString_eq_state upload s b hb]
      unfold retainedParts
      simp only [hb]
      exact hc
  · intro s b hb
    rw [parseEmailFromString_eq_state upload s b hb]
    unfold retainedParts
    simp only [hb]
    split <;> simp
  · have hd10 : ∀ p ∈ parts.take 10,
        indexOf (boundaryMarker boundary) (p ++ boundaryMarker boundary) = some p.length :=
      fun p hp => hdelim p (List.mem_of_mem_take hp)
    have hs1 := stringParseState_assembled upload header boundary trailer parts hheader hdelim ht
    have hs2 := stringParseState_assembled upload header boundary trailer (parts.take 10)
      hheader hd10 ht
    have hh1 := split_assembled header boundary trailer hheader ht parts hdelim
    have hh2 := split_assembled header boundary trailer hheader ht (parts.take 10) hd10
    rw [parseEmailFromString_eq_state upload _ boundary hdecl,
      parseEmailFromString_eq_state upload _ boundary hdecl10, hs1, hs2, hh1, hh2]
    simp only [List.take_take, Nat.min_self, List.headD_cons]

set_option maxRecDepth 100000 in
/-- An instance: a message of eleven body parts gives the result of its first ten. -/
theorem parseEmailFromString_first_ten_witness :
    (∀ s, (parseEmailFromString okUpload s).attachmentUrls.length
        + (retainedParts okUpload s).length ≤ 10) ∧
    (∀ s b, matchBoundary s = some b →
      (parseEmailFromString okUpload s).cleanBody
        = (split (boundaryMarker b) s).headD [] ++ "\n\n".toList
            ++ rebuildParts b (retainedParts okUpload s)
            ++ (if (retainedParts okUpload s).length > 0 then boundaryMarker b ++ "--".toList
                else [])) ∧
    parseEmailFromString okUpload
        (assembleMessage sampleHeader "X".toList (elevenBodyParts.map MimePart.text) "--".toList)
      = parseEmailFromString okUpload
          (assembleMessage sampleHeader "X".toList
            ((elevenBodyParts.map MimePart.text).take 10) "--".toList) :=
  parseEmailFromString_first_ten okUpload sampleHeader "X".toList "--".toList
    (elevenBodyParts.map MimePart.text) (by decide) (by decide) (by decide) (by decide)
    (by decide)

set_option maxRecDepth 100000 in
/-- C20 (counterexample). An input of eleven parts whose only boundary declaration stands in
the eleventh part: the parser reads the boundary from there and returns the header, a blank
line and the first ten parts; with the eleventh part removed no boundary is found and the
input comes back as it is, so the two results differ. -/
theorem parseEmailFromString_declaration_in_removed_part :
    declarationInEleventhPart.length = 11 ∧
    matchBoundary (assembleMessage "Subject: t\n\n".toList "X".toList
        declarationInEleventhPart "--".toList) = some "X".toList ∧
    split (boundaryMarker "X".toList) (assembleMessage "Subject: t\n\n".toList "X".toList
        declarationInEleventhPart "--".toList)
      = "Subject: t\n\n".toList :: (declarationInEleventhPart ++ ["--".toList]) ∧
    (parseEmailFromString okUpload (assembleMessage "Subject: t\n\n".toList "X".toList
        declarationInEleventhPart "--".toList)).cleanBody
      = "Subject: t\n\n".toList ++ "\n\n".toList
          ++ ((declarationInEleventhPart.take 10).map (fun p => "--X".toList ++ p)).flatten
          ++ "--X--".toList ∧
    (parseEmailFromString okUpload (assembleMessage "Subject: t\n\n".toList "X".toList
        (declarationInEleventhPart.take 10) "--".toList)).cleanBody
      = "Subject: t\n\n".toList
          ++ ((declarationInEleventhPart.take 10).map (fun p => "--X".toList ++ p)).flatten
          ++ "--X--".toList ∧
    parseEmailFromString okUpload (assembleMessage "Subject: t\n\n".toList "X".toList
        declarationInEleventhPart "--".toList)
      ≠ parseEmailFromString okUpload (assembleMessage "Subject: t\n\n".toList "X".toList
          (declarationInEleventhPart.take 10) "--".toList) := by
  decide

/-! ## Base64: white space in the payload -/

theorem filter_whitespaceInserted {s t : Str} (h : WhitespaceInserted s t) :
    t.filter (fun c => !isSpaceChar c) = s.filter (fun c => !isSpaceChar c) := by
  induction h with
  | done => rfl
  | keep c _ ih => simp only [List.filter_cons, ih]
  | insert w hw _ ih =>
    have hsp : isSpaceChar w = true := by
      rcases hw with rfl | rfl | rfl | rfl <;> decide
    simp only [List.filter_cons, hsp, Bool.not_true, Bool.false_eq_true, if_false, ih]

theorem whitespaceInserted_ne_nil {s t : Str} (h : WhitespaceInserted s t) (hs : s ≠ []) :
    t ≠ [] := by
  cases h with
  | done => exact absurd rfl hs
  | keep c _ => simp
  | insert w _ _ => simp

theorem base64ToUint8Array_of_clean_nil (t : Str)
    (h : t.filter (fun c => !isSpaceChar c) = []) : base64ToUint8Array t = [] := by
  unfold base64ToUint8Array
  by_cases h0 : t = []
  · simp [h0]
  · simp only [h0, if_false, h]
    decide

/-- C17. For every string `s` and every string `t` obtained from `s` by inserting space,
tab, carriage return or line feed characters at arbitrary positions, `base64ToUint8Array`
returns the same bytes for `t` as for `s`. -/
theorem base64ToUint8Array_whitespace (s t : Str) (h : WhitespaceInserted s t) :
    base64ToUint8Array t = base64ToUint8Array s := by
  have hf := filter_whitespaceInserted h
  by_cases hs : s = []
  · subst hs
    rw [base64ToUint8Array_of_clean_nil t (by rw [hf]; rfl)]
    rfl
  · have ht := whitespaceInserted_ne_nil h hs
    unfold base64ToUint8Array
    simp only [hs, ht, if_false, hf]

/-- An instance: `aGVsbG8=` cut by a line break and followed by a space. -/
theorem base64ToUint8Array_whitespace_witness :
    base64ToUint8Array "aGVs\r\nbG8= ".toList = base64ToUint8Array "aGVsbG8=".toList ∧
    base64ToUint8Array "aGVs\r\nbG8= ".toList = [104, 101, 108, 108, 111] :=
  ⟨base64ToUint8Array_whitespace "aGVsbG8=".toList "aGVs\r\nbG8= ".toList
    (WhitespaceInserted.keep 'a' (WhitespaceInserted.keep 'G' (WhitespaceInserted.keep 'V'
      (WhitespaceInserted.keep 's' (WhitespaceInserted.insert '\r' (by decide)
        (WhitespaceInserted.insert '\n' (by decide) (WhitespaceInserted.keep 'b'
          (WhitespaceInserted.keep 'G' (WhitespaceInserted.keep '8'
            (WhitespaceInserted.keep '=' (WhitespaceInserted.insert ' ' (by decide)
              WhitespaceInserted.done))))))))))),
    by decide⟩

/-! ## `splitByLength` -/

theorem splitByLengthLoop_spec (str : Str) (maxLength : Nat) (hmax : 1 ≤ maxLength) :
    ∀ (fuel i : Nat) (chunks : List Str), str.length - i ≤ fuel →
      ∃ rest, splitByLengthLoop str maxLength fuel i chunks = some (chunks ++ rest) ∧
        rest.flatten = str.drop i ∧
        (∀ c ∈ rest, c ≠ [] ∧ c.length ≤ maxLength) ∧
        (∀ c ∈ rest.dropLast, c.length = maxLength) ∧
        rest.length = (str.length - i + maxLength - 1) / maxLength
  | 0, i, chunks, hf => by
    have hi : ¬ i < str.length := by omega
    refine ⟨[], by simp [splitByLengthLoop, hi], ?_, by simp, by simp, ?_⟩
    · rw [List.drop_of_length_le (by omega)]; rfl
    · have h0 : str.length - i = 0 := by omega
      rw [h0, List.length_nil]
      exact (Nat.div_eq_of_lt (by omega)).symm
  | fuel + 1, i, chunks, hf => by
    by_cases hi : i < str.length
    · obtain ⟨rest, h1, h2, h3, h4, h5⟩ := splitByLengthLoop_spec str maxLength hmax fuel
        (i + maxLength) (chunks ++ [(str.drop i).take maxLength]) (by omega)
      have hlen : ((str.drop i).take maxLength).length = min maxLength (str.length - i) := by
        simp [List.length_take, List.length_drop]
      refine ⟨(str.drop i).take maxLength :: rest, ?_, ?_, ?_, ?_, ?_⟩
      · simp only [splitByLengthLoop, hi, if_true, h1]
        simp
      · have hdd : List.drop (i + maxLength) str = List.drop maxLength (List.drop i str) := by
          rw [List.drop_drop]
        simp only [List.flatten_cons, h2, hdd, List.take_append_drop]
      · intro c hc
        rcases List.mem_cons.1 hc with rfl | hc
        · constructor
          · intro h0
            have := congrArg List.length h0
            rw [hlen] at this
            simp only [List.length_nil] at this
            omega
          · rw [hlen]; omega
        · exact h3 c hc
      · intro c hc
        cases hr : rest with
        | nil => rw [hr] at hc; simp at hc
        | cons r rs =>
          rw [hr, List.dropLast_cons₂] at hc
          have hpos : 1 ≤ (str.length - (i + maxLength) + maxLength - 1) / maxLength := by
            rw [← h5, hr]; simp
          have hgt : i + maxLength < str.length := by
            by_contra hcon
            have h0 : str.length - (i + maxLength) = 0 := by omega
            rw [h0, Nat.div_eq_of_lt (by omega)] at hpos
            omega
          rcases List.mem_cons.1 hc with rfl | hc
          · rw [hlen]; omega
          · exact h4 c (by rw [hr]; exact hc)
      · rw [List.length_cons, h5]
        have e1 : str.length - i + maxLength - 1 = (str.length - i - 1) + maxLength := by omega
        rw [e1, Nat.add_div_right _ (by omega)]
        by_cases hd : maxLength ≤ str.length - i
        · have e2 : str.length - (i + maxLength) + maxLength - 1 = str.length - i - 1 := by omega
          rw [e2]
        · have e2 : str.length - (i + maxLength) + maxLength - 1 = maxLength - 1 := by omega
          rw [e2, Nat.div_eq_of_lt (by omega : maxLength - 1 < maxLength),
            Nat.div_eq_of_lt (by omega : str.length - i - 1 < maxLength)]
    · refine ⟨[], by simp [splitByLengthLoop, hi], ?_, by simp, by simp, ?_⟩
      · rw [List.drop_of_length_le (by omega)]; rfl
      · have h0 : str.length - i = 0 := by omega
        rw [h0, List.length_nil]
        exact (Nat.div_eq_of_lt (by omega)).symm

theorem splitByLengthLoop_fuel (str : Str) (maxLength : Nat) (hmax : 1 ≤ maxLength) :
    ∀ (fuel fuel2 i : Nat) (chunks : List Str), str.length - i ≤ fuel → str.length - i ≤ fuel2 →
      splitByLengthLoop str maxLength fuel i chunks
        = splitByLengthLoop str maxLength fuel2 i chunks
  | 0, 0, _, _, _, _ => rfl
  | 0, fuel2 + 1, i, chunks, h1, _ => by
    have hi : ¬ i < str.length := by omega
    simp [splitByLengthLoop, hi]
  | fuel + 1, 0, i, chunks, _, h2 => by
    have hi : ¬ i < str.length := by omega
    simp [splitByLengthLoop, hi]
  | fuel + 1, fuel2 + 1, i, chunks, h1, h2 => by
    by_cases hi : i < str.length
    · simp only [splitByLengthLoop, hi, if_true]
      exact splitByLengthLoop_fuel str maxLength hmax fuel fuel2 _ _ (by omega) (by omega)
    · simp [splitByLengthLoop, hi]

/-- With `maxLength` 0 and a non-empty string the loop never ends: no fuel is enough. -/
theorem splitByLengthLoop_zero (str : Str) (hs : str ≠ []) :
    ∀ (fuel : Nat) (chunks : List Str), splitByLengthLoop str 0 fuel 0 chunks = none
  | 0, chunks => by
    have : 0 < str.length := List.length_pos.2 hs
    simp [splitByLengthLoop, this]
  | fuel + 1, chunks => by
    have : 0 < str.length := List.length_pos.2 hs
    simp only [splitByLengthLoop, this, if_true, Nat.add_zero]
    exact splitByLengthLoop_zero str hs fuel _

/-- C19. For every string and every `maxLength` of at least 1, `splitByLength` terminates
(as many iterations as the string has characters are enough, and more change nothing) and
returns chunks whose concatenation in order is the string, every chunk non-empty and of
length at most `maxLength`, every chunk but the last of length exactly `maxLength`; their
number is the length of the string divided by `maxLength`, rounded up. -/
theorem splitByLength_chunks (str : Str) (maxLength : Nat) (hmax : 1 ≤ maxLength) :
    ∃ chunks,
      (∀ fuel, str.length ≤ fuel → splitByLength fuel str maxLength = some chunks) ∧
      chunks.flatten = str ∧
      (∀ c ∈ chunks, c ≠ [] ∧ c.length ≤ maxLength) ∧
      (∀ c ∈ chunks.dropLast, c.length = maxLength) ∧
      chunks.length = (str.length + maxLength - 1) / maxLength ∧
      (str = [] → chunks = []) := by
  obtain ⟨rest, h1, h2, h3, h4, h5⟩ :=
    splitByLengthLoop_spec str maxLength hmax str.length 0 [] (by omega)
  refine ⟨rest, ?_, by simpa using h2, h3, h4, by simpa using h5, ?_⟩
  · intro fuel hf
    unfold splitByLength
    rw [splitByLengthLoop_fuel str maxLength hmax fuel str.length 0 [] (by omega) (by omega), h1]
    rfl
  · intro hs
    subst hs
    have := h5
    simp only [List.length_nil, Nat.zero_sub, Nat.zero_add] at this
    rw [Nat.div_eq_of_lt (by omega)] at this
    exact List.length_eq_zero.1 this

/-- An instance: seven characters in chunks of three. -/
theorem splitByLength_chunks_witness :
    ∃ chunks,
      (∀ fuel, "abcdefg".toList.length ≤ fuel →
        splitByLength fuel "abcdefg".toList 3 = some chunks) ∧
      chunks.flatten = "abcdefg".toList ∧
      (∀ c ∈ chunks, c ≠ [] ∧ c.length ≤ 3) ∧
      (∀ c ∈ chunks.dropLast, c.length = 3) ∧
      chunks.length = ("abcdefg".toList.length + 3 - 1) / 3 ∧
      ("abcdefg".toList = [] → chunks = []) :=
  splitByLength_chunks "abcdefg".toList 3 (by decide)

/-! ## `getMimeType` -/

theorem includes_dot_iff (s : Str) : includes ".".toList s = true ↔ '.' ∈ s := by
  unfold includes
  induction s with
  | nil => simp [indexOf, startsWith, List.isPrefixOf]
  | cons c cs ih =>
    rw [indexOf_cons]
    have hsw : startsWith ".".toList (c :: cs) = ('.' == c) := by
      simp [startsWith, List.isPrefixOf]
    rw [hsw]
    by_cases hc : '.' = c
    · subst hc; simp
    · have hne : ('.' == c) = false := by simpa using hc
      rw [hne]
      simp only [Bool.false_eq_true, if_false, List.mem_cons]
      constructor
      · intro h
        right
        apply ih.1
        cases hi : indexOf ".".toList cs with
        | none => rw [hi] at h; simp at h
        | some i => rfl
      · intro h
        rcases h with h | h
        · exact absurd h hc
        · have := ih.2 h
          cases hi : indexOf ".".toList cs with
          | none => rw [hi] at this; simp at this
          | some i => rfl

theorem lastIndexOfDot_none (s : Str) (h : '.' ∉ s) : lastIndexOfDot s = none := by
  induction s with
  | nil => rfl
  | cons c cs ih =>
    have hc : (c == '.') = false := by
      have : c ≠ '.' := fun hcc => h (by simp [hcc])
      simpa using this
    simp only [lastIndexOfDot, ih (fun hm => h (by simp [hm])), hc, Bool.false_eq_true, if_false]

theorem lastIndexOfDot_final (pre post : Str) (h : '.' ∉ post) :
    lastIndexOfDot (pre ++ '.' :: post) = some pre.length := by
  induction pre with
  | nil => simp [lastIndexOfDot, lastIndexOfDot_none post h]
  | cons c cs ih => simp [lastIndexOfDot, ih]

theorem mimeExtension_final (toLowerCase : Str → Str) (pre post : Str) (h : '.' ∉ post) :
    mimeExtension toLowerCase (pre ++ '.' :: post) = toLowerCase ('.' :: post) := by
  unfold mimeExtension
  have hinc : includes ".".toList (pre ++ '.' :: post) = true :=
    (includes_dot_iff _).2 (by simp)
  rw [hinc, lastIndexOfDot_final pre post h]
  simp

theorem mimeExtension_no_dot (toLowerCase : Str → Str) (s : Str) (h : '.' ∉ s) :
    mimeExtension toLowerCase s = [] := by
  unfold mimeExtension
  have hinc : includes ".".toList s = false := by
    cases hi : includes ".".toList s with
    | false => rfl
    | true => exact absurd ((includes_dot_iff _).1 hi) h
  rw [hinc]
  rfl

theorem mimeTypes_values : ∀ p ∈ mimeTypes, p.2 ≠ [] ∧ p.2 ≠ octetStream := by
  decide

theorem mimeTypes_lookup_value (k v : Str) (h : mimeTypes.lookup k = some v) :
    v ≠ [] ∧ v ≠ octetStream := by
  obtain ⟨l1, l2, hl, _⟩ := List.lookup_eq_some_iff.1 h
  exact mimeTypes_values (k, v) (by rw [hl]; simp)

theorem getMimeType_eq_lookup (toLowerCase : Str → Str) (filename : Str) :
    getMimeType toLowerCase filename
      = (mimeTypes.lookup (mimeExtension toLowerCase filename)).getD octetStream ∧
    (getMimeType toLowerCase filename = octetStream ↔
      mimeTypes.lookup (mimeExtension toLowerCase filename) = none) := by
  unfold getMimeType
  cases h : mimeTypes.lookup (mimeExtension toLowerCase filename) with
  | none => simp
  | some v =>
    obtain ⟨h1, h2⟩ := mimeTypes_lookup_value _ _ h
    simp [h1, h2]

theorem getMimeType_final (toLowerCase : Str → Str) (pre post : Str) (h : '.' ∉ post) :
    getMimeType toLowerCase (pre ++ '.' :: post)
      = (mimeTypes.lookup (toLowerCase ('.' :: post))).getD octetStream := by
  rw [(getMimeType_eq_lookup toLowerCase _).1, mimeExtension_final toLowerCase pre post h]

/-- The Kelvin sign `U+212A` has the lower case `k`: with a `toLowerCase` that maps `.M` `U+212A`
`V` to `.mkv`, as the Unicode mapping does, the file `x.M` `U+212A` `V` gets the type of
`.mkv`. -/
theorem getMimeType_kelvin (toLowerCase : Str → Str)
    (h : toLowerCase ".M\u212AV".toList = ".mkv".toList) :
    getMimeType toLowerCase "x.M\u212AV".toList = "video/x-matroska".toList := by
  have hf := getMimeType_final toLowerCase "x".toList "M\u212AV".toList (by decide)
  have e1 : "x".toList ++ '.' :: "M\u212AV".toList = "x.M\u212AV".toList := by decide
  have e2 : '.' :: "M\u212AV".toList = ".M\u212AV".toList := by decide
  rw [e1, e2, h] at hf
  rw [hf]
  decide

/-- The letter `U+0130` has a lower case of two characters, `i` and `U+0307`: with a
`toLowerCase` that maps `U+0130` `.mp4` so, as the Unicode mapping does, the index of the
`.` in the filename falls one character before the `.` in the lower-cased name, and
`isVideoFile` answers `false`. -/
theorem isVideoFile_dotted_capital_i (toLowerCase : Str → Str)
    (h : toLowerCase "\u0130.mp4".toList = "i\u0307.mp4".toList) :
    isVideoFile toLowerCase "\u0130.mp4".toList = false := by
  unfold isVideoFile lowerExtension
  rw [h]
  decide

/-- C18. For every filename and every lower-casing function `toLowerCase` the platform may
provide, `getMimeType` returns the table's entry for the lower case of the filename's final
extension (the text from the last `.` to the end), and returns `application/octet-stream`
exactly when that lower-cased extension is not a key of the table, as for every filename
without a `.`; two filenames whose final extensions have the same lower case get the same
type. -/
theorem getMimeType_spec (toLowerCase : Str → Str) (filename : Str) :
    (∀ pre post, filename = pre ++ '.' :: post → '.' ∉ post →
      getMimeType toLowerCase filename
        = (mimeTypes.lookup (toLowerCase ('.' :: post))).getD octetStream ∧
      (getMimeType toLowerCase filename = octetStream ↔
        ∀ p ∈ mimeTypes, p.1 ≠ toLowerCase ('.' :: post))) ∧
    ('.' ∉ filename → getMimeType toLowerCase filename = octetStream) ∧
    (∀ pre post pre2 post2, filename = pre ++ '.' :: post → '.' ∉ post → '.' ∉ post2 →
      toLowerCase ('.' :: post2) = toLowerCase ('.' :: post) →
      getMimeType toLowerCase (pre2 ++ '.' :: post2) = getMimeType toLowerCase filename) := by
  refine ⟨?_, ?_, ?_⟩
  · intro pre post hf hpost
    have hext := mimeExtension_final toLowerCase pre post hpost
    obtain ⟨h1, h2⟩ := getMimeType_eq_lookup toLowerCase filename
    rw [hf] at h1 h2 ⊢
    rw [hext] at h1 h2
    refine ⟨h1, h2.trans ?_⟩
    rw [List.lookup_eq_none_iff]
    constructor
    · intro h p hp heq
      have := h p hp
      rw [heq] at this
      simp at this
    · intro h p hp
      have := h p hp
      simp only [bne_iff_ne, ne_eq]
      exact fun heq => this heq.symm
  · intro hno
    have hext := mimeExtension_no_dot toLowerCase filename hno
    obtain ⟨_, h2⟩ := getMimeType_eq_lookup toLowerCase filename
    rw [h2, hext]
    decide
  · intro pre post pre2 post2 hf hpost hpost2 heq
    rw [hf, getMimeType_final toLowerCase pre post hpost,
      getMimeType_final toLowerCase pre2 post2 hpost2, heq]

set_option maxRecDepth 100000 in
/-- An instance, with the lower-casing of ASCII letters: `report.final.PDF` has the final
extension `.PDF` and the type of `.pdf`, the same as `x.pdf`. -/
theorem getMimeType_spec_witness :
    getMimeType asciiLowerCase "report.final.PDF".toList = "application/pdf".toList ∧
    (getMimeType asciiLowerCase "report.final.PDF".toList
        = (mimeTypes.lookup (asciiLowerCase ('.' :: "PDF".toList))).getD octetStream ∧
      (getMimeType asciiLowerCase "report.final.PDF".toList = octetStream ↔
        ∀ p ∈ mimeTypes, p.1 ≠ asciiLowerCase ('.' :: "PDF".toList))) ∧
    getMimeType asciiLowerCase "README".toList = octetStream ∧
    getMimeType asciiLowerCase ("x".toList ++ '.' :: "pdf".toList)
      = getMimeType asciiLowerCase "report.final.PDF".toList ∧
    getMimeType asciiLowerCase "archive.tar.xyz".toList = octetStream :=
  ⟨by decide,
    (getMimeType_spec asciiLowerCase "report.final.PDF".toList).1 "report.final".toList
      "PDF".toList (by decide) (by decide),
    (getMimeType_spec asciiLowerCase "README".toList).2.1 (by decide),
    (getMimeType_spec asciiLowerCase "report.final.PDF".toList).2.2 "report.final".toList
      "PDF".toList "x".toList "pdf".toList (by decide) (by decide) (by decide) (by decide),
    by decide⟩

/-! ## Classification of a part -/

theorem processEmailPart_eq_classify (toLowerCase : Str → Str) (upload : Uploader)
    (st : ParseState) (part : Str) :
    processEmailPart toLowerCase upload st part =
      match classifyPart part with
      | PartClass.body => { st with bodyParts := st.bodyParts ++ [⟨PartType.body, part, none⟩] }
      | PartClass.attachment filename => processAttachment toLowerCase upload part filename st
      | PartClass.ignored => st := by
  unfold processEmailPart classifyPart
  cases hasAttachmentDisposition part with
  | false => rfl
  | true =>
    simp only [if_true]
    cases matchFilename part <;> rfl

theorem startsWith_straddle (p u v : Str) (hlt : u.length < p.length)
    (h : startsWith p (u ++ v) = true) :
    ∃ w t, w ≠ [] ∧ p = u ++ w ∧ v = w ++ t := by
  obtain ⟨t, ht⟩ := (startsWith_iff _ _).1 h
  rcases List.append_eq_append_iff.1 ht with ⟨w, hw, hv⟩ | ⟨a, ha, _⟩
  · refine ⟨w, t, ?_, hw, hv⟩
    intro hw0
    rw [hw0, List.append_nil] at hw
    rw [hw] at hlt
    omega
  · exfalso
    have := congrArg List.length ha
    simp only [List.length_append] at this
    omega

theorem indexOf_append_none (p h rest : Str) (c : Char) (t : Str) (hrest : rest = c :: t)
    (hc : c ∉ p) (hh : indexOf p h = none) (hr : indexOf p rest = none) :
    indexOf p (h ++ rest) = none := by
  rw [indexOf_eq_none_iff] at hh hr ⊢
  intro j hj
  by_cases hjh : j < h.length
  · rw [List.drop_append_of_le_length (by omega)]
    cases hs : startsWith p (h.drop j ++ rest) with
    | false => rfl
    | true =>
      exfalso
      by_cases hl : p.length ≤ (h.drop j).length
      · have := startsWith_of_append _ _ _ hl hs
        rw [hh j (by omega)] at this
        exact absurd this (by simp)
      · obtain ⟨w, t2, hw0, hpw, hvw⟩ := startsWith_straddle p (h.drop j) rest (by omega) hs
        rw [hrest] at hvw
        cases w with
        | nil => exact hw0 rfl
        | cons e w2 =>
          simp only [List.cons_append, List.cons.injEq] at hvw
          apply hc
          rw [hpw, hvw.1]
          simp
  · have hd : (h ++ rest).drop j = rest.drop (j - h.length) := by
      rw [List.drop_append_eq_append_drop, List.drop_of_length_le (by omega)]
      rfl
    rw [hd]
    apply hr
    simp only [List.length_append] at hj
    omega

theorem includes_append_inert (p h rest : Str)
    (hstart : rest = [] ∨ ∃ t, rest = '\n' :: t ∨ rest = '\r' :: t)
    (hp : '\n' ∉ p ∧ '\r' ∉ p) (hr : includes p rest = false) :
    includes p (h ++ rest) = includes p h := by
  rcases hstart with h0 | ⟨t, ht⟩
  · rw [h0, List.append_nil]
  · cases hh : includes p h with
    | true =>
      unfold includes at hh ⊢
      cases hi : indexOf p h with
      | none => rw [hi] at hh; simp at hh
      | some i => rw [indexOf_append_of_some p h rest i hi]; rfl
    | false =>
      rw [includes_eq_false_iff] at hh hr ⊢
      rcases ht with ht | ht
      · exact indexOf_append_none p h rest '\n' t ht hp.1 hh hr
      · exact indexOf_append_none p h rest '\r' t ht hp.2 hh hr

theorem hasAttachmentDisposition_append_inert (h rest : Str)
    (hstart : rest = [] ∨ ∃ t, rest = '\n' :: t ∨ rest = '\r' :: t)
    (h1 : includes "Content-Disposition: attachment".toList rest = false)
    (h2 : includes "Content-Disposition:attachment".toList rest = false) :
    hasAttachmentDisposition (h ++ rest) = hasAttachmentDisposition h := by
  unfold hasAttachmentDisposition
  rw [includes_append_inert _ h rest hstart (by decide) h1,
    includes_append_inert _ h rest hstart (by decide) h2]

theorem matchBare_none_of_indexOf (key : Str) : ∀ (s : Str), indexOf key s = none →
    matchBare key s = none
  | [], _ => rfl
  | c :: cs, h => by
    rw [indexOf_cons] at h
    cases hs : startsWith key (c :: cs) with
    | true => simp [hs] at h
    | false =>
      simp only [hs, Bool.false_eq_true, if_false] at h
      have hcs : indexOf key cs = none := by
        cases hi : indexOf key cs with
        | none => rfl
        | some i => simp [hi] at h
      rw [matchBare_cons, hs, matchBare_none_of_indexOf key cs hcs]
      simp

theorem takeWhile_append_stop (f : Char → Bool) (c : Char) (t : Str) (hc : f c = false) :
    ∀ (d : Str), (d ++ c :: t).takeWhile f = d.takeWhile f
  | [] => by simp [List.takeWhile, hc]
  | x :: d => by
    cases hx : f x with
    | true =>
      have e1 : List.takeWhile f (x :: (d ++ c :: t)) = x :: List.takeWhile f (d ++ c :: t) :=
        List.takeWhile_cons_of_pos hx
      have e2 : List.takeWhile f (x :: d) = x :: List.takeWhile f d :=
        List.takeWhile_cons_of_pos hx
      rw [List.cons_append, e1, e2, takeWhile_append_stop f c t hc d]
    | false =>
      have e1 : List.takeWhile f (x :: (d ++ c :: t)) = [] :=
        List.takeWhile_cons_of_neg (by simp [hx])
      have e2 : List.takeWhile f (x :: d) = [] := List.takeWhile_cons_of_neg (by simp [hx])
      rw [List.cons_append, e1, e2]

theorem matchBare_append_inert (key rest : Str) (c : Char) (t : Str) (hrest : rest = c :: t)
    (hstop : (c != ';' && !isSpaceChar c) = false) (hc : c ∉ key)
    (hr : indexOf key rest = none) :
    ∀ (h : Str), matchBare key (h ++ rest) = matchBare key h
  | [] => by
    rw [List.nil_append, matchBare_none_of_indexOf key rest hr]
    rfl
  | x :: h => by
    have ih := matchBare_append_inert key rest c t hrest hstop hc hr h
    rw [List.cons_append, matchBare_cons, matchBare_cons, ih]
    cases hs : startsWith key (x :: h) with
    | true =>
      have hs2 : startsWith key (x :: (h ++ rest)) = true := by
        have := startsWith_append_of key (x :: h) rest hs
        simpa using this
      have hl := startsWith_length_le _ _ hs
      have hd : (x :: (h ++ rest)).drop key.length = (x :: h).drop key.length ++ rest := by
        rw [← List.cons_append, List.drop_append_of_le_length hl]
      rw [hs2, hd, hrest, takeWhile_append_stop _ c t hstop]
    | false =>
      have hs2 : startsWith key (x :: (h ++ rest)) = false := by
        cases hs3 : startsWith key (x :: (h ++ rest)) with
        | false => rfl
        | true =>
          exfalso
          rw [← List.cons_append] at hs3
          by_cases hl : key.length ≤ (x :: h).length
          · rw [startsWith_of_append _ _ _ hl hs3] at hs
            exact absurd hs (by simp)
          · obtain ⟨w, t2, hw0, hpw, hvw⟩ :=
              startsWith_straddle key (x :: h) rest (by omega) hs3
            rw [hrest] at hvw
            cases w with
            | nil => exact hw0 rfl
            | cons e w2 =>
              simp only [List.cons_append, List.cons.injEq] at hvw
              apply hc
              rw [hpw, hvw.1]
              simp
      rw [hs2]
      simp

theorem matchQuoted_none_of_no_quote (key : Str) : ∀ (s : Str), dquote ∉ s →
    matchQuoted key s = none
  | [], _ => rfl
  | c :: cs, h => by
    have hs : startsWith (key ++ [dquote]) (c :: cs) = false := by
      cases hs : startsWith (key ++ [dquote]) (c :: cs) with
      | false => rfl
      | true =>
        exfalso
        obtain ⟨t, ht⟩ := (startsWith_iff _ _).1 hs
        apply h
        rw [ht]
        simp
    rw [matchQuoted_cons, hs, matchQuoted_none_of_no_quote key cs (fun hm => h (by simp [hm]))]
    simp

theorem takeWhile_no_quote (s : Str) (h : dquote ∉ s) :
    s.takeWhile (fun x => x != dquote) = s := by
  rw [List.takeWhile_eq_self_iff]
  intro c hc
  have : c ≠ dquote := fun hcc => h (hcc ▸ hc)
  simpa using this

/-- The attempt of `/key"([^"]+)"/` at the head of a string. -/
theorem quotedAttempt_append (d rest : Str) (hq : dquote ∉ rest) :
    (if (d ++ rest).takeWhile (fun x => x != dquote) != [] &&
          ((d ++ rest).drop ((d ++ rest).takeWhile (fun x => x != dquote)).length).head?
            == some dquote
        then some ((d ++ rest).takeWhile (fun x => x != dquote)) else none)
      = (if d.takeWhile (fun x => x != dquote) != [] &&
          (d.drop (d.takeWhile (fun x => x != dquote)).length).head? == some dquote
        then some (d.takeWhile (fun x => x != dquote)) else none) := by
  have hsplit := (List.takeWhile_append_dropWhile (fun x => x != dquote) d).symm
  have hall : ∀ c ∈ d.takeWhile (fun x => x != dquote), c ≠ dquote := by
    intro c hc
    simpa using List.mem_takeWhile_imp hc
  rw [drop_length_takeWhile, drop_length_takeWhile]
  cases hdw : d.dropWhile (fun x => x != dquote) with
  | nil =>
    rw [hdw, List.append_nil] at hsplit
    have hdq : dquote ∉ d := by
      intro hm
      rw [hsplit] at hm
      exact hall _ hm rfl
    have hdr : dquote ∉ d ++ rest := by
      intro hm
      rcases List.mem_append.1 hm with h | h
      · exact hdq h
      · exact hq h
    have e1 : (d ++ rest).dropWhile (fun x => x != dquote) = [] := by
      rw [List.dropWhile_eq_nil_iff]
      intro c hc
      have : c ≠ dquote := fun hcc => hdr (hcc ▸ hc)
      simpa using this
    rw [e1]
    simp
  | cons e d2 =>
    have he : e = dquote := by
      have := List.head_dropWhile_not (fun x => x != dquote) d (by rw [hdw]; simp)
      simp only [hdw, List.head_cons, bne_iff_ne, ne_eq, Bool.not_eq_true, Bool.not_eq_eq_eq_not,
        Bool.not_true, bne_eq_false_iff_eq] at this
      exact this
    subst he
    rw [hdw] at hsplit
    have e1 : (d ++ rest).takeWhile (fun x => x != dquote)
        = d.takeWhile (fun x => x != dquote) := by
      conv_lhs => rw [hsplit, List.append_assoc, List.cons_append]
      exact takeWhile_until_quote _ _ hall
    have e2 : (d ++ rest).dropWhile (fun x => x != dquote) = dquote :: (d2 ++ rest) := by
      conv_lhs => rw [hsplit, List.append_assoc, List.cons_append]
      rw [List.dropWhile_append_of_pos (fun c hc => by simpa using hall c hc)]
      simp [List.dropWhile]
    rw [e1, e2]
    simp

theorem matchQuoted_append_inert (key rest : Str) (hq : dquote ∉ rest) :
    ∀ (h : Str), matchQuoted key (h ++ rest) = matchQuoted key h
  | [] => by
    rw [List.nil_append, matchQuoted_none_of_no_quote key rest hq]
    rfl
  | x :: h => by
    have ih := matchQuoted_append_inert key rest hq h
    rw [List.cons_append, matchQuoted_cons, matchQuoted_cons, ih]
    cases hs : startsWith (key ++ [dquote]) (x :: h) with
    | true =>
      have hs2 : startsWith (key ++ [dquote]) (x :: (h ++ rest)) = true := by
        have := startsWith_append_of (key ++ [dquote]) (x :: h) rest hs
        simpa using this
      have hl := startsWith_length_le _ _ hs
      have hd : (x :: (h ++ rest)).drop (key.length + 1)
          = (x :: h).drop (key.length + 1) ++ rest := by
        rw [← List.cons_append, List.drop_append_of_le_length (by simpa using hl)]
      rw [hs2, hd]
      simp only [if_true]
      rw [quotedAttempt_append _ rest hq]
    | false =>
      have hs2 : startsWith (key ++ [dquote]) (x :: (h ++ rest)) = false := by
        cases hs3 : startsWith (key ++ [dquote]) (x :: (h ++ rest)) with
        | false => rfl
        | true =>
          exfalso
          rw [← List.cons_append] at hs3
          by_cases hl : (key ++ [dquote]).length ≤ (x :: h).length
          · rw [startsWith_of_append _ _ _ hl hs3] at hs
            exact absurd hs (by simp)
          · obtain ⟨w, t2, hw0, hpw, hvw⟩ :=
              startsWith_straddle (key ++ [dquote]) (x :: h) rest (by omega) hs3
            apply hq
            have hrev := congrArg List.reverse hpw
            simp only [List.reverse_append, List.reverse_cons, List.reverse_nil,
              List.nil_append, List.singleton_append] at hrev
            cases hwr : w.reverse with
            | nil =>
              exact absurd (List.reverse_eq_nil_iff.1 hwr) hw0
            | cons e w2 =>
              rw [hwr] at hrev
              simp only [List.cons_append, List.cons.injEq] at hrev
              have hmem : dquote ∈ w := by
                rw [← List.mem_reverse, hwr, hrev.1]
                simp
              rw [hvw]
              exact List.mem_append_left _ hmem
      rw [hs2]
      simp

theorem classifyPart_append_inert (h rest : Str)
    (hstart : rest = [] ∨ ∃ t, rest = '\n' :: t ∨ rest = '\r' :: t) (hin : InertContent rest) :
    classifyPart (h ++ rest) = classifyPart h := by
  obtain ⟨h1, h2, h3, h4⟩ := hin
  have hd := hasAttachmentDisposition_append_inert h rest hstart h1 h2
  have hq := matchQuoted_append_inert "filename=".toList rest h4 h
  have hb : matchBare "filename=".toList (h ++ rest) = matchBare "filename=".toList h := by
    rcases hstart with h0 | ⟨t, ht | ht⟩
    · rw [h0, List.append_nil]
    · exact matchBare_append_inert _ rest '\n' t ht (by decide) (by decide)
        ((includes_eq_false_iff _ _).1 h3) h
    · exact matchBare_append_inert _ rest '\r' t ht (by decide) (by decide)
        ((includes_eq_false_iff _ _).1 h3) h
  unfold classifyPart matchFilename
  rw [hd, hq, hb]

/-- A part is its header block followed by text that is empty or begins with a line break. -/
theorem headerBlock_decompose (part : Str) :
    part = headerBlock part ++ part.drop (headerBlock part).length ∧
    (part.drop (headerBlock part).length = [] ∨
      ∃ t, part.drop (headerBlock part).length = '\n' :: t ∨
        part.drop (headerBlock part).length = '\r' :: t) := by
  unfold headerBlock
  cases hcs : contentStart part with
  | none => simp
  | some i =>
    have hstart : startsWith "\n\n".toList (part.drop i) = true ∨
        startsWith "\r\n\r\n".toList (part.drop i) = true := by
      unfold contentStart at hcs
      cases h1 : indexOf "\n\n".toList part with
      | some j =>
        rw [h1] at hcs
        simp only [Option.some.injEq] at hcs
        subst hcs
        exact Or.inl ((indexOf_eq_some_iff _ _ _).1 h1).1
      | none =>
        rw [h1] at hcs
        exact Or.inr ((indexOf_eq_some_iff _ _ _).1 hcs).1
    have hle : i ≤ part.length := by
      unfold contentStart at hcs
      cases h1 : indexOf "\n\n".toList part with
      | some j =>
        rw [h1] at hcs
        simp only [Option.some.injEq] at hcs
        subst hcs
        exact ((indexOf_eq_some_iff _ _ _).1 h1).2.1
      | none =>
        rw [h1] at hcs
        exact ((indexOf_eq_some_iff _ _ _).1 hcs).2.1
    have hlen : (part.take i).length = i := by
      rw [List.length_take]; omega
    simp only [hlen, List.take_append_drop, true_and]
    right
    rcases hstart with h | h
    · obtain ⟨t, ht⟩ := (startsWith_iff _ _).1 h
      exact ⟨'\n' :: t, Or.inl (by rw [ht]; rfl)⟩
    · obtain ⟨t, ht⟩ := (startsWith_iff _ _).1 h
      exact ⟨'\n' :: '\r' :: '\n' :: t, Or.inr (by rw [ht]; rfl)⟩

/-- C16 (amended). For every two parts that have the same text before their first blank
line and whose text from that blank line on holds neither `Content-Disposition: attachment`
nor `Content-Disposition:attachment`, no `filename=` and no double quote, the classification
is the one of the header block alone and is the same for both: `processEmailPart` treats
both as body, or both as attachment under the same filename, or ignores both. -/
theorem classifyPart_header_only (part1 part2 : Str)
    (hheader : headerBlock part1 = headerBlock part2)
    (h1 : InertContent (part1.drop (headerBlock part1).length))
    (h2 : InertContent (part2.drop (headerBlock part2).length)) :
    classifyPart part1 = classifyPart (headerBlock part1) ∧
    classifyPart part1 = classifyPart part2 ∧
    (∀ (toLowerCase : Str → Str) (upload : Uploader) (st : ParseState),
      processEmailPart toLowerCase upload st part1 =
        (match classifyPart part1 with
          | PartClass.body =>
            { st with bodyParts := st.bodyParts ++ [⟨PartType.body, part1, none⟩] }
          | PartClass.attachment filename => processAttachment toLowerCase upload part1 filename st
          | PartClass.ignored => st) ∧
      processEmailPart toLowerCase upload st part2 =
        (match classifyPart part1 with
          | PartClass.body =>
            { st with bodyParts := st.bodyParts ++ [⟨PartType.body, part2, none⟩] }
          | PartClass.attachment filename => processAttachment toLowerCase upload part2 filename st
          | PartClass.ignored => st)) := by
  obtain ⟨hd1, hs1⟩ := headerBlock_decompose part1
  obtain ⟨hd2, hs2⟩ := headerBlock_decompose part2
  have e1 : classifyPart part1 = classifyPart (headerBlock part1) := by
    conv_lhs => rw [hd1]
    exact classifyPart_append_inert _ _ hs1 h1
  have e2 : classifyPart part2 = classifyPart (headerBlock part2) := by
    conv_lhs => rw [hd2]
    exact classifyPart_append_inert _ _ hs2 h2
  have e12 : classifyPart part1 = classifyPart part2 := by rw [e1, e2, hheader]
  refine ⟨e1, e12, fun toLowerCase upload st =>
    ⟨processEmailPart_eq_classify toLowerCase upload st part1, ?_⟩⟩
  rw [e12]
  exact processEmailPart_eq_classify toLowerCase upload st part2

theorem inertContent_of_check (rest : Str)
    (h : includes "Content-Disposition: attachment".toList rest = false ∧
      includes "Content-Disposition:attachment".toList rest = false ∧
      includes "filename=".toList rest = false ∧
      rest.contains dquote = false) : InertContent rest := by
  obtain ⟨h1, h2, h3, h4⟩ := h
  refine ⟨h1, h2, h3, ?_⟩
  intro hm
  have : rest.contains dquote = true := List.contains_iff_exists_mem_beq.2 ⟨dquote, hm, by simp⟩
  rw [h4] at this
  exact absurd this (by simp)

set_option maxRecDepth 100000 in
/-- An instance: two attachment parts with the same header block and different base64
content. -/
theorem classifyPart_header_only_witness :
    classifyPart namedPart = classifyPart (headerBlock namedPart) ∧
    classifyPart namedPart
      = classifyPart "\nContent-Disposition: attachment; filename=a.txt\n\nd29ybGQ=\n".toList ∧
    (∀ (toLowerCase : Str → Str) (upload : Uploader) (st : ParseState),
      processEmailPart toLowerCase upload st namedPart =
        (match classifyPart namedPart with
          | PartClass.body =>
            { st with bodyParts := st.bodyParts ++ [⟨PartType.body, namedPart, none⟩] }
          | PartClass.attachment filename =>
            processAttachment toLowerCase upload namedPart filename st
          | PartClass.ignored => st) ∧
      processEmailPart toLowerCase upload st
          "\nContent-Disposition: attachment; filename=a.txt\n\nd29ybGQ=\n".toList =
        (match classifyPart namedPart with
          | PartClass.body =>
            { st with bodyParts := st.bodyParts ++ [⟨PartType.body,
                "\nContent-Disposition: attachment; filename=a.txt\n\nd29ybGQ=\n".toList, none⟩] }
          | PartClass.attachment filename =>
            processAttachment toLowerCase upload
              "\nContent-Disposition: attachment; filename=a.txt\n\nd29ybGQ=\n".toList filename
              st
          | PartClass.ignored => st)) :=
  classifyPart_header_only namedPart
    "\nContent-Disposition: attachment; filename=a.txt\n\nd29ybGQ=\n".toList
    (by decide) (inertContent_of_check _ (by decide)) (inertContent_of_check _ (by decide))

set_option maxRecDepth 100000 in
/-- C16 (counterexample). Two parts with the same header block, `Content-Type: text/plain`:
the one whose content quotes an attachment header is handled as an attachment and kept
with type `attachment`, the other is body. And two attachment parts with the same header
block: a quoted `filename` in the content of one replaces the filename of its header. -/
theorem classifyPart_reads_content :
    headerBlock plainPart = headerBlock quotingPart ∧
    classifyPart plainPart = PartClass.body ∧
    classifyPart quotingPart = PartClass.attachment "x.bin".toList ∧
    (∀ (toLowerCase : Str → Str), processEmailPart toLowerCase okUpload ⟨[], []⟩ plainPart
      = ⟨[], [⟨PartType.body, plainPart, none⟩]⟩) ∧
    (∀ (toLowerCase : Str → Str), processEmailPart toLowerCase okUpload ⟨[], []⟩ quotingPart
      = ⟨[], [⟨PartType.attachment, quotingPart, some "x.bin".toList⟩]⟩) ∧
    headerBlock namedPart = headerBlock renamingPart ∧
    classifyPart namedPart = PartClass.attachment "a.txt".toList ∧
    classifyPart renamingPart = PartClass.attachment "evil.exe".toList :=
  ⟨by decide, by decide, by decide, fun _ => by rfl, fun _ => by rfl, by decide, by decide,
    by decide⟩

end EmailWorker
